import Mathlib

/-!
# Verification of the structured-dsa-python graph / heap / priority-queue core

Shallow embedding of the repository's two heap implementations
(`dijkstra-heap-optimization/graph_heap_pq.py`, abbreviated `ghp`, and
`dijkstra-heap-optimization/heap_priority_queue.py`, abbreviated `hpq`),
of the two graph classes (`graph_heap_pq.py` weighted `Graph` and
`graph-search-algorithms/labyrinth_graph.py` unweighted `Graph`, abbreviated
`lab`), and of the traversal algorithms (`bfs`, `dijkstraP`, `getPath`).

Python lists become `List`, dictionaries become functions into `Option`,
raised exceptions become `Except`, and `math.inf` distances become `none`
in an `Option Int`.  Loops whose termination is not structural are given
explicit fuel; every theorem that relies on a fueled loop finishing either
supplies provably sufficient fuel or evaluates at a concrete input.
-/

/-- Errors raised by the embedded code.  `emptyHeap` and `elementNotFound`
stand for the two `Exception(...)` messages of `Heap.delete`, `underflow`
for `PriorityQueue.dequeue`'s `Exception("Underflow")`, `indexError` for a
Python `IndexError` (out-of-range list subscript), and `keyError` for a
Python `KeyError` (missing dictionary key). -/
inductive PyErr : Type where
  | emptyHeap : PyErr
  | elementNotFound : PyErr
  | underflow : PyErr
  | indexError : PyErr
  | keyError : PyErr
deriving DecidableEq, Repr

deriving instance DecidableEq for Except

/-- Swap the entries at positions `i` and `j`, mirroring the simultaneous
assignment `data[i], data[j] = data[j], data[i]`.  Out-of-range indices
leave the list unchanged (the embedded code only swaps valid indices). -/
def lswap (d : List α) (i j : Nat) : List α :=
  match d[i]?, d[j]? with
  | some a, some b => (d.set i b).set j a
  | _, _ => d

theorem lswap_length (d : List α) (i j : Nat) : (lswap d i j).length = d.length := by
  unfold lswap
  cases hi : d[i]? <;> cases hj : d[j]? <;> simp

theorem List.set_self_of_getElem? (d : List α) (i : Nat) (a : α)
    (h : d[i]? = some a) : d.set i a = d := by
  induction d generalizing i with
  | nil => simp at h
  | cons x t ih =>
    cases i with
    | zero => simp at h; simp [h]
    | succ n => simp at h ⊢; exact ih n h

theorem lswap_get_left (d : List α) (i j : Nat) (a b : α)
    (hi : d[i]? = some a) (hj : d[j]? = some b) (hij : i ≠ j) :
    (lswap d i j)[i]? = some b := by
  unfold lswap
  rw [hi, hj]
  rw [List.getElem?_set_ne hij.symm]
  rw [List.getElem?_set_self]
  simp [List.getElem?_eq_some] at hi
  exact hi.1

theorem lswap_get_right (d : List α) (i j : Nat) (a b : α)
    (hi : d[i]? = some a) (hj : d[j]? = some b) :
    (lswap d i j)[j]? = some a := by
  unfold lswap
  rw [hi, hj]
  rw [List.getElem?_set_self]
  simp [List.getElem?_eq_some] at hj
  simpa using hj.1

theorem lswap_get_other (d : List α) (i j k : Nat)
    (hik : k ≠ i) (hjk : k ≠ j) : (lswap d i j)[k]? = d[k]? := by
  unfold lswap
  cases hi : d[i]? <;> cases hj : d[j]? <;> try rfl
  rw [List.getElem?_set_ne (by omega), List.getElem?_set_ne (by omega)]

theorem cons_set_perm (t : List α) (k : Nat) (b x : α)
    (h : t[k]? = some b) : (b :: t.set k x).Perm (x :: t) := by
  induction t generalizing k with
  | nil => simp at h
  | cons y t' ih =>
    cases k with
    | zero =>
      simp only [List.getElem?_cons_zero, Option.some.injEq] at h
      subst h
      exact List.Perm.swap x y t'
    | succ n =>
      simp only [List.getElem?_cons_succ] at h
      have h1 : (b :: t'.set n x).Perm (x :: t') := ih n h
      exact (List.Perm.swap y b _).trans ((h1.cons y).trans (List.Perm.swap x y t'))

theorem lswap_perm (d : List α) (i j : Nat) : (lswap d i j).Perm d := by
  induction d generalizing i j with
  | nil =>
    unfold lswap
    simp
  | cons x t ih =>
    cases i with
    | zero =>
      cases j with
      | zero =>
        unfold lswap
        simp
      | succ m =>
        unfold lswap
        cases hj : t[m]? with
        | none => simp [hj]
        | some b =>
          simp only [List.getElem?_cons_zero, List.getElem?_cons_succ, hj,
            List.set_cons_zero, List.set_cons_succ]
          exact cons_set_perm t m b x hj
    | succ n =>
      cases j with
      | zero =>
        unfold lswap
        cases hi : t[n]? with
        | none => simp [hi]
        | some a =>
          simp only [List.getElem?_cons_zero, List.getElem?_cons_succ, hi,
            List.set_cons_zero, List.set_cons_succ]
          exact cons_set_perm t n a x hi
      | succ m =>
        unfold lswap
        cases hi : t[n]? with
        | none => simp [hi]
        | some a =>
          cases hj : t[m]? with
          | none => simp [hi, hj]
          | some b =>
            simp only [List.getElem?_cons_succ, hi, hj, List.set_cons_succ]
            have h1 : (lswap t n m).Perm t := ih n m
            unfold lswap at h1
            rw [hi, hj] at h1
            exact h1.cons x

/-- `isDesc k j` holds when array index `j` lies in the subtree rooted at
index `k` of the implicit binary tree (`left i = 2*i+1`, `right i = 2*(i+1)`,
`parent i = (i-1)/2`, as in the Python `Heap`). -/
def isDesc (k j : Nat) : Bool :=
  if j = k then true
  else if j < k then false
  else isDesc k ((j - 1) / 2)
termination_by j
decreasing_by omega

theorem isDesc_self (k : Nat) : isDesc k k = true := by
  unfold isDesc; simp

theorem isDesc_le {k j : Nat} (h : isDesc k j = true) : k ≤ j := by
  induction j using Nat.strong_induction_on with
  | _ j ih =>
    unfold isDesc at h
    split at h
    · omega
    · split at h
      · exact absurd h (by simp)
      · have := ih ((j - 1) / 2) (by omega) h
        omega

theorem isDesc_of_parent {k j : Nat} (hj : k < j) (h : isDesc k ((j - 1) / 2) = true) :
    isDesc k j = true := by
  unfold isDesc
  simp only [if_neg (by omega : ¬ j = k), if_neg (by omega : ¬ j < k)]
  exact h

theorem isDesc_cases {k j : Nat} (h : isDesc k j = true) :
    j = k ∨ (k < j ∧ isDesc k ((j - 1) / 2) = true) := by
  unfold isDesc at h
  split at h
  · left; assumption
  · split at h
    · exact absurd h (by simp)
    · right; exact ⟨by omega, h⟩

theorem isDesc_child {k j c : Nat} (h : isDesc k j = true)
    (hc : c = 2 * j + 1 ∨ c = 2 * (j + 1)) : isDesc k c = true := by
  have hkj := isDesc_le h
  have hpar : (c - 1) / 2 = j := by omega
  exact isDesc_of_parent (by omega) (by rw [hpar]; exact h)

theorem isDesc_trans {a b c : Nat} (h1 : isDesc a b = true) (h2 : isDesc b c = true) :
    isDesc a c = true := by
  induction c using Nat.strong_induction_on with
  | _ c ih =>
    rcases isDesc_cases h2 with rfl | ⟨hbc, hp⟩
    · exact h1
    · have hab := isDesc_le h1
      have hbp := isDesc_le hp
      exact isDesc_of_parent (by omega) (ih ((c - 1) / 2) (by omega) hp)

theorem not_isDesc_of_lt {k j : Nat} (h : j < k) : isDesc k j = false := by
  by_contra hc
  have := isDesc_le (by simpa using Bool.not_eq_false _ |>.mp hc)
  omega

theorem not_isDesc_of_parent_lt {m c : Nat} (hne : c ≠ m)
    (hp : (c - 1) / 2 < m) : isDesc m c = false := by
  by_contra hb
  have h : isDesc m c = true := by simpa using Bool.not_eq_false _ |>.mp hb
  rcases isDesc_cases h with rfl | ⟨_, hpar⟩
  · exact hne rfl
  · have := isDesc_le hpar
    omega

/-- Strict-preference test between two positions of the array, mirroring the
guarded Python comparison `idx2 < len(self.data) and self.data[idx1] < self.data[idx2]`
shape: it is `false` whenever either index is out of range. -/
def oP (P : α → α → Bool) (d : List α) (i j : Nat) : Bool :=
  match d[i]?, d[j]? with
  | some a, some b => P a b
  | _, _ => false

theorem oP_out_left {P : α → α → Bool} {d : List α} {i j : Nat}
    (h : d.length ≤ i) : oP P d i j = false := by
  unfold oP
  rw [List.getElem?_eq_none h]

theorem oP_eq_true {P : α → α → Bool} {d : List α} {i j : Nat}
    (h : oP P d i j = true) :
    ∃ a b, d[i]? = some a ∧ d[j]? = some b ∧ P a b = true := by
  unfold oP at h
  cases hi : d[i]? <;> cases hj : d[j]? <;> rw [hi, hj] at h <;> simp_all

/-- The index selected by one pass of the Python `max_heapify` / `min_heapify`
body (`largest_index` resp. `smallest_index`).  `P a b = true` means the
element `a` is strictly preferred to `b` and must move above it
(`P a b = decide (b < a)` for a max-heap, `P a b = decide (a < b)` for a
min-heap).  The two `if` tests mirror

    if left_index < len(self) and data[index] < data[left_index]: ...
    if right_index < len(self) and data[largest_index] < data[right_index]: ...

with the guarded comparison folded into `oP`. -/
def pickIdx (P : α → α → Bool) (d : List α) (index : Nat) : Nat :=
  let li := 2 * index + 1
  let ri := 2 * (index + 1)
  let c1 := if decide (li < d.length) && oP P d li index then li else index
  if decide (ri < d.length) && oP P d ri c1 then ri else c1

/-- The sift-down loop of `max_heapify` / `min_heapify`, with explicit fuel
for the tail call `self.heapify(largest_index)`; the swap mirrors
`data[largest_index], data[index] = data[index], data[largest_index]`.
Whenever `d.length ≤ index + fuel` the fuel never runs out, since each
recursive call strictly increases `index` while preserving the length. -/
def siftA (P : α → α → Bool) : Nat → List α → Nat → List α
  | 0, d, _ => d
  | fuel + 1, d, index =>
    let m := pickIdx P d index
    if m ≠ index then siftA P fuel (lswap d index m) m else d


theorem siftA_length (P : α → α → Bool) (fuel : Nat) (d : List α) (index : Nat) :
    (siftA P fuel d index).length = d.length := by
  induction fuel generalizing d index with
  | zero => rfl
  | succ n ih =>
    unfold siftA
    dsimp only
    split
    · rw [ih, lswap_length]
    · rfl

theorem siftA_perm (P : α → α → Bool) (fuel : Nat) (d : List α) (index : Nat) :
    (siftA P fuel d index).Perm d := by
  induction fuel generalizing d index with
  | zero => exact List.Perm.refl d
  | succ n ih =>
    unfold siftA
    dsimp only
    split
    · exact (ih _ _).trans (lswap_perm _ _ _)
    · exact List.Perm.refl d

theorem oP_some_some {P : α → α → Bool} {d : List α} {i j : Nat} {a b : α}
    (hi : d[i]? = some a) (hj : d[j]? = some b) : oP P d i j = P a b := by
  unfold oP
  rw [hi, hj]

theorem oP_congr {P : α → α → Bool} {d e : List α} {i j : Nat}
    (hi : e[i]? = d[i]?) (hj : e[j]? = d[j]?) : oP P e i j = oP P d i j := by
  unfold oP
  rw [hi, hj]

/-- `HeapFrom P d k`: every parent/child pair of the array whose parent index
is at least `k` satisfies the heap order (the child is not strictly preferred
to its parent); pairs reaching outside the array hold vacuously. -/
def HeapFrom (P : α → α → Bool) (d : List α) (k : Nat) : Prop :=
  ∀ j c, k ≤ j → (c = 2 * j + 1 ∨ c = 2 * (j + 1)) → oP P d c j = false

theorem heapFrom_mono {P : α → α → Bool} {d : List α} {k k' : Nat}
    (hk : k ≤ k') (h : HeapFrom P d k) : HeapFrom P d k' :=
  fun j c hj hc => h j c (le_trans hk hj) hc

theorem heapFrom_of_len {P : α → α → Bool} {d : List α} {k : Nat}
    (h : d.length ≤ 2 * k + 1) : HeapFrom P d k := by
  intro j c hj hc
  exact oP_out_left (by omega)

/-- Preference functions for which the sift-down argument goes through:
asymmetry, transitivity of non-preference, and the mixed variant.  Both
`fun a b => decide (b < a)` (max-heap) and `fun a b => decide (a < b)`
(min-heap) over a linear order satisfy all three. -/
structure PrOk (P : α → α → Bool) : Prop where
  asym : ∀ x y, P x y = true → P y x = false
  ffTrans : ∀ x y z, P y x = false → P z y = false → P z x = false
  ftSide : ∀ x y z, P y x = false → P z x = true → P y z = false

theorem PrOk.irrefl {P : α → α → Bool} (hP : PrOk P) (x : α) : P x x = false := by
  cases h : P x x
  · rfl
  · have := hP.asym x x h
    simp [h] at this

theorem prOk_max {α : Type _} [LinearOrder α] :
    PrOk (fun a b : α => decide (b < a)) := by
  constructor
  · intro x y h
    simp only [decide_eq_true_eq] at h
    simp only [decide_eq_false_iff_not]
    exact lt_asymm h
  · intro x y z h1 h2
    simp only [decide_eq_false_iff_not] at h1 h2 ⊢
    intro h
    exact absurd (lt_of_lt_of_le h (le_trans (le_of_not_lt h2) (le_of_not_lt h1)))
      (lt_irrefl x)
  · intro x y z h1 h2
    simp only [decide_eq_false_iff_not] at h1 ⊢
    simp only [decide_eq_true_eq] at h2
    intro h
    exact h1 (lt_trans h2 h)

theorem prOk_min {α : Type _} [LinearOrder α] :
    PrOk (fun a b : α => decide (a < b)) := by
  constructor
  · intro x y h
    simp only [decide_eq_true_eq] at h
    simp only [decide_eq_false_iff_not]
    exact lt_asymm h
  · intro x y z h1 h2
    simp only [decide_eq_false_iff_not] at h1 h2 ⊢
    intro h
    exact absurd (lt_of_lt_of_le h (le_trans (le_of_not_lt h1) (le_of_not_lt h2)))
      (lt_irrefl z)
  · intro x y z h1 h2
    simp only [decide_eq_false_iff_not] at h1 ⊢
    simp only [decide_eq_true_eq] at h2
    intro h
    exact h1 (lt_trans h h2)

/-- In a region of the array satisfying the heap order from `m` on, the root
`m` of a subtree is weakly preferred to every element of that subtree. -/
theorem heapFrom_root_best {P : α → α → Bool} (hP : PrOk P) {d : List α} {m : Nat}
    (hH : HeapFrom P d m) :
    ∀ j a b, isDesc m j = true → d[j]? = some a → d[m]? = some b → P a b = false := by
  intro j
  induction j using Nat.strong_induction_on with
  | _ j ih =>
    intro a b hdesc hja hmb
    rcases isDesc_cases hdesc with rfl | ⟨hmj, hpar⟩
    · rw [hja] at hmb
      cases hmb
      exact hP.irrefl a
    · have hjlen : j < d.length := (List.getElem?_eq_some.mp hja).1
      have hplen : (j - 1) / 2 < d.length := by
        have : (j - 1) / 2 < j := by omega
        omega
      obtain ⟨ap, hap⟩ : ∃ ap, d[(j - 1) / 2]? = some ap := by
        rw [List.getElem?_eq_getElem hplen]
        exact ⟨_, rfl⟩
      have hchild : j = 2 * ((j - 1) / 2) + 1 ∨ j = 2 * ((j - 1) / 2 + 1) := by omega
      have hpair := hH ((j - 1) / 2) j (isDesc_le hpar) hchild
      rw [oP_some_some hja hap] at hpair
      have hup := ih ((j - 1) / 2) (by omega) ap b hpar hap hmb
      exact hP.ffTrans b ap a hup hpair

/-- Full case analysis of the `largest_index` / `smallest_index` selection. -/
theorem pickIdx_spec (P : α → α → Bool) (d : List α) (k : Nat) :
    (pickIdx P d k = k ∧ oP P d (2 * k + 1) k = false ∧ oP P d (2 * (k + 1)) k = false) ∨
    (pickIdx P d k = 2 * k + 1 ∧ oP P d (2 * k + 1) k = true ∧ 2 * k + 1 < d.length ∧
      oP P d (2 * (k + 1)) (2 * k + 1) = false) ∨
    (pickIdx P d k = 2 * (k + 1) ∧ oP P d (2 * k + 1) k = false ∧
      oP P d (2 * (k + 1)) k = true ∧ 2 * (k + 1) < d.length) ∨
    (pickIdx P d k = 2 * (k + 1) ∧ oP P d (2 * k + 1) k = true ∧ 2 * k + 1 < d.length ∧
      oP P d (2 * (k + 1)) (2 * k + 1) = true ∧ 2 * (k + 1) < d.length) := by
  unfold pickIdx
  dsimp only
  by_cases h1 : (decide (2 * k + 1 < d.length) && oP P d (2 * k + 1) k) = true
  · simp only [if_pos h1]
    have h1' := h1
    simp only [Bool.and_eq_true, decide_eq_true_eq] at h1'
    by_cases h2 : (decide (2 * (k + 1) < d.length) &&
        oP P d (2 * (k + 1)) (2 * k + 1)) = true
    · simp only [if_pos h2]
      have h2' := h2
      simp only [Bool.and_eq_true, decide_eq_true_eq] at h2'
      right; right; right
      exact ⟨by trivial, h1'.2, h1'.1, h2'.2, h2'.1⟩
    · simp only [if_neg h2]
      right; left
      refine ⟨by trivial, h1'.2, h1'.1, ?_⟩
      rcases Nat.lt_or_ge (2 * (k + 1)) d.length with hlt | hge
      · simpa [hlt] using h2
      · exact oP_out_left hge
  · simp only [if_neg h1]
    have h1' : oP P d (2 * k + 1) k = false := by
      rcases Nat.lt_or_ge (2 * k + 1) d.length with hlt | hge
      · simpa [hlt] using h1
      · exact oP_out_left hge
    by_cases h2 : (decide (2 * (k + 1) < d.length) && oP P d (2 * (k + 1)) k) = true
    · simp only [if_pos h2]
      have h2' := h2
      simp only [Bool.and_eq_true, decide_eq_true_eq] at h2'
      right; right; left
      exact ⟨by trivial, h1', h2'.2, h2'.1⟩
    · simp only [if_neg h2]
      have h2' : oP P d (2 * (k + 1)) k = false := by
        rcases Nat.lt_or_ge (2 * (k + 1)) d.length with hlt | hge
        · simpa [hlt] using h2
        · exact oP_out_left hge
      left
      exact ⟨by trivial, h1', h2'⟩

theorem pickIdx_cases (P : α → α → Bool) (d : List α) (index : Nat) :
    pickIdx P d index = index ∨
      ((pickIdx P d index = 2 * index + 1 ∨ pickIdx P d index = 2 * (index + 1)) ∧
        index < pickIdx P d index ∧ pickIdx P d index < d.length) := by
  rcases pickIdx_spec P d index with ⟨h, _⟩ | ⟨h, _, hl, _⟩ | ⟨h, _, _, hl⟩ | ⟨h, _, _, _, hl⟩
  · exact Or.inl h
  · exact Or.inr ⟨Or.inl h, by omega, by omega⟩
  · exact Or.inr ⟨Or.inr h, by omega, by omega⟩
  · exact Or.inr ⟨Or.inr h, by omega, by omega⟩

/-- Sift-down at root `k` only rewrites positions inside the subtree of `k`. -/
theorem siftA_get_out (P : α → α → Bool) (fuel : Nat) (d : List α) (k : Nat) :
    ∀ j, isDesc k j = false → (siftA P fuel d k)[j]? = d[j]? := by
  induction fuel generalizing d k with
  | zero => intro j _; rfl
  | succ n ih =>
    intro j hj
    unfold siftA
    dsimp only
    split
    · rename_i hne
      rcases pickIdx_cases P d k with hmk | ⟨hchild, hlt, hlen⟩
      · exact absurd hmk hne
      · have hdescm : isDesc k (pickIdx P d k) = true :=
          isDesc_child (isDesc_self k) (by omega)
        have hjk : j ≠ k := fun h => by rw [h, isDesc_self] at hj; cases hj
        have hjm : j ≠ pickIdx P d k := fun h => by rw [h, hdescm] at hj; cases hj
        have hmj : isDesc (pickIdx P d k) j = false := by
          cases hmj : isDesc (pickIdx P d k) j
          · rfl
          · rw [isDesc_trans hdescm hmj] at hj; cases hj
        rw [ih (lswap d k (pickIdx P d k)) (pickIdx P d k) j hmj]
        exact lswap_get_other d k (pickIdx P d k) j hjk hjm
    · rfl

/-- If `X` dominates every element of the subtree at `k`, the same holds
after sifting down at `k` (sift-down only permutes that subtree). -/
theorem siftA_bound (P : α → α → Bool) (fuel : Nat) (d : List α) (k : Nat) (X : α)
    (hdom : ∀ j a, isDesc k j = true → d[j]? = some a → P a X = false) :
    ∀ j a, isDesc k j = true → (siftA P fuel d k)[j]? = some a → P a X = false := by
  induction fuel generalizing d k with
  | zero => exact hdom
  | succ n ih =>
    intro j a hj hja
    unfold siftA at hja
    dsimp only at hja
    split at hja
    · rename_i hne
      rcases pickIdx_cases P d k with hmk | ⟨hchild, hlt, hlen⟩
      · exact absurd hmk hne
      · have hdescm : isDesc k (pickIdx P d k) = true :=
          isDesc_child (isDesc_self k) (by omega)
        have hklen : k < d.length := by omega
        obtain ⟨vk, hvk⟩ : ∃ vk, d[k]? = some vk := by
          rw [List.getElem?_eq_getElem hklen]; exact ⟨_, rfl⟩
        obtain ⟨vm, hvm⟩ : ∃ vm, d[pickIdx P d k]? = some vm := by
          rw [List.getElem?_eq_getElem hlen]; exact ⟨_, rfl⟩
        have hdom' : ∀ j' a', isDesc (pickIdx P d k) j' = true →
            (lswap d k (pickIdx P d k))[j']? = some a' → P a' X = false := by
          intro j' a' hj' hja'
          by_cases hjm : j' = pickIdx P d k
          · rw [hjm] at hja'
            rw [lswap_get_right d k (pickIdx P d k) vk vm hvk hvm] at hja'
            cases hja'
            exact hdom k vk (isDesc_self k) hvk
          · have hjk : j' ≠ k := by
              have := isDesc_le hj'
              omega
            rw [lswap_get_other d k (pickIdx P d k) j' hjk hjm] at hja'
            exact hdom j' a' (isDesc_trans hdescm hj') hja'
        by_cases hmj : isDesc (pickIdx P d k) j = true
        · exact ih (lswap d k (pickIdx P d k)) (pickIdx P d k) hdom' j a hmj hja
        · have hmj' : isDesc (pickIdx P d k) j = false := by
            cases h : isDesc (pickIdx P d k) j
            · rfl
            · exact absurd h hmj
          rw [siftA_get_out P n (lswap d k (pickIdx P d k)) (pickIdx P d k) j hmj'] at hja
          by_cases hjm2 : j = pickIdx P d k
          · rw [hjm2] at hmj
            exact absurd (isDesc_self _) hmj
          · by_cases hjk2 : j = k
            · rw [hjk2] at hja
              rw [lswap_get_left d k (pickIdx P d k) vk vm hvk hvm (by omega)] at hja
              have hva : vm = a := by injection hja
              rw [hva] at hvm
              exact hdom (pickIdx P d k) a hdescm hvm
            · rw [lswap_get_other d k (pickIdx P d k) j hjk2 hjm2] at hja
              exact hdom j a hj hja
    · exact hdom j a hj hja

theorem oP_none_left {P : α → α → Bool} {d : List α} {i j : Nat}
    (h : d[i]? = none) : oP P d i j = false := by
  unfold oP
  rw [h]

theorem oP_false_elim {P : α → α → Bool} {d : List α} {i j : Nat} {a b : α}
    (h : oP P d i j = false) (hi : d[i]? = some a) (hj : d[j]? = some b) :
    P a b = false := by
  rw [oP_some_some hi hj] at h
  exact h

/-- Correctness of sift-down: if all parent/child pairs with parent index
above `k` are ordered, sifting down at `k` orders every pair with parent
index at least `k` (with enough fuel for the recursion to bottom out). -/
theorem siftA_heapFrom {P : α → α → Bool} (hP : PrOk P) :
    ∀ (fuel : Nat) (d : List α) (k : Nat), d.length ≤ k + fuel →
      HeapFrom P d (k + 1) → HeapFrom P (siftA P fuel d k) k := by
  intro fuel
  induction fuel with
  | zero =>
    intro d k hfuel _
    intro j c hj hc
    have hz : siftA P 0 d k = d := rfl
    rw [hz]
    exact oP_out_left (by omega)
  | succ n ih =>
    intro d k hfuel hpre
    unfold siftA
    dsimp only
    split
    · rename_i hne
      have hfacts : k < pickIdx P d k ∧
          (pickIdx P d k = 2 * k + 1 ∨ pickIdx P d k = 2 * (k + 1)) ∧
          pickIdx P d k < d.length ∧
          oP P d k (pickIdx P d k) = false ∧
          oP P d (4 * k + 3 - pickIdx P d k) (pickIdx P d k) = false := by
        rcases pickIdx_spec P d k with ⟨hmk, _, _⟩ | ⟨hm, ho1, hllen, ho2⟩ |
          ⟨hm, ho1, ho2, hrlen⟩ | ⟨hm, ho1, hllen, ho2, hrlen⟩
        · exact absurd hmk hne
        · -- picked the left child, right child is not preferred to it
          refine ⟨by omega, by omega, by omega, ?_, ?_⟩
          · obtain ⟨vl, vk, hvl, hvk, hPl⟩ := oP_eq_true ho1
            rw [hm, oP_some_some hvk hvl]
            exact hP.asym vl vk hPl
          · have hsib : 4 * k + 3 - pickIdx P d k = 2 * (k + 1) := by omega
            rw [hsib, hm]
            exact ho2
        · -- left child not preferred to parent, right child picked
          obtain ⟨vr, vk, hvr, hvk, hPr⟩ := oP_eq_true ho2
          have hllen : 2 * k + 1 < d.length := by omega
          obtain ⟨vl, hvl⟩ : ∃ vl, d[2 * k + 1]? = some vl := by
            rw [List.getElem?_eq_getElem hllen]; exact ⟨_, rfl⟩
          refine ⟨by omega, by omega, by omega, ?_, ?_⟩
          · rw [hm, oP_some_some hvk hvr]
            exact hP.asym vr vk hPr
          · have hsib : 4 * k + 3 - pickIdx P d k = 2 * k + 1 := by omega
            rw [hsib, hm, oP_some_some hvl hvr]
            exact hP.ftSide vk vl vr (oP_false_elim ho1 hvl hvk) hPr
        · -- both children preferred to parent, right preferred to left
          obtain ⟨vl, vk, hvl, hvk, hPl⟩ := oP_eq_true ho1
          obtain ⟨vr, vl', hvr, hvl', hPrl⟩ := oP_eq_true ho2
          rw [hvl] at hvl'
          cases hvl'
          have hvkvl : P vk vl = false := hP.asym vl vk hPl
          have hvlvr : P vl vr = false := hP.asym vr vl hPrl
          refine ⟨by omega, by omega, by omega, ?_, ?_⟩
          · rw [hm, oP_some_some hvk hvr]
            exact hP.ffTrans vr vl vk hvlvr hvkvl
          · have hsib : 4 * k + 3 - pickIdx P d k = 2 * k + 1 := by omega
            rw [hsib, hm, oP_some_some hvl hvr]
            exact hvlvr
      obtain ⟨hlt, hchild, hlen, hF1, hF2⟩ := hfacts
      have hdescm : isDesc k (pickIdx P d k) = true :=
        isDesc_child (isDesc_self k) hchild
      have hklen : k < d.length := by omega
      obtain ⟨vk, hvk⟩ : ∃ vk, d[k]? = some vk := by
        rw [List.getElem?_eq_getElem hklen]; exact ⟨_, rfl⟩
      obtain ⟨vm, hvm⟩ : ∃ vm, d[pickIdx P d k]? = some vm := by
        rw [List.getElem?_eq_getElem hlen]; exact ⟨_, rfl⟩
      have hd'k : (lswap d k (pickIdx P d k))[k]? = some vm :=
        lswap_get_left d k (pickIdx P d k) vk vm hvk hvm (by omega)
      have hd'm : (lswap d k (pickIdx P d k))[pickIdx P d k]? = some vk :=
        lswap_get_right d k (pickIdx P d k) vk vm hvk hvm
      have hd'len : (lswap d k (pickIdx P d k)).length = d.length := lswap_length d k _
      have hpre' : HeapFrom P (lswap d k (pickIdx P d k)) (pickIdx P d k + 1) := by
        intro j c hj hc
        rw [oP_congr
          (lswap_get_other d k (pickIdx P d k) c (by omega) (by omega))
          (lswap_get_other d k (pickIdx P d k) j (by omega) (by omega))]
        exact hpre j c (by omega) hc
      have hEheap : HeapFrom P
          (siftA P n (lswap d k (pickIdx P d k)) (pickIdx P d k)) (pickIdx P d k) :=
        ih (lswap d k (pickIdx P d k)) (pickIdx P d k) (by omega) hpre'
      have hEk : (siftA P n (lswap d k (pickIdx P d k)) (pickIdx P d k))[k]? = some vm := by
        rw [siftA_get_out P n (lswap d k (pickIdx P d k)) (pickIdx P d k) k
          (not_isDesc_of_lt hlt)]
        exact hd'k
      -- the sifted subtree stays dominated by the promoted value vm
      have hdomE : ∀ j a, isDesc (pickIdx P d k) j = true →
          (siftA P n (lswap d k (pickIdx P d k)) (pickIdx P d k))[j]? = some a →
          P a vm = false := by
        refine siftA_bound P n (lswap d k (pickIdx P d k)) (pickIdx P d k) vm ?_
        intro j' a' hj' hja'
        by_cases hjm : j' = pickIdx P d k
        · rw [hjm] at hja'
          rw [hd'm] at hja'
          cases hja'
          exact oP_false_elim hF1 hvk hvm
        · have hjk : j' ≠ k := by
            have := isDesc_le hj'
            omega
          rw [lswap_get_other d k (pickIdx P d k) j' hjk hjm] at hja'
          exact heapFrom_root_best hP (heapFrom_mono (by omega) hpre) j' a' vm hj' hja' hvm
      intro j c hj hc
      rcases Nat.lt_or_ge j (pickIdx P d k) with hjlt | hjge
      · rcases Nat.eq_or_lt_of_le hj with rfl | hkj
        · -- parent is the sift root itself
          by_cases hcm : c = pickIdx P d k
          · subst hcm
            cases hEc : (siftA P n (lswap d k (pickIdx P d k)) (pickIdx P d k))[pickIdx P d k]? with
            | none => exact oP_none_left hEc
            | some a =>
              rw [oP_some_some hEc hEk]
              exact hdomE (pickIdx P d k) a (isDesc_self _) hEc
          · -- the untouched sibling child
            cases hEc : (siftA P n (lswap d k (pickIdx P d k)) (pickIdx P d k))[c]? with
            | none => exact oP_none_left hEc
            | some vo =>
              rw [oP_some_some hEc hEk]
              have hcdesc : isDesc (pickIdx P d k) c = false :=
                not_isDesc_of_parent_lt hcm (by omega)
              rw [siftA_get_out P n (lswap d k (pickIdx P d k)) (pickIdx P d k) c hcdesc] at hEc
              rw [lswap_get_other d k (pickIdx P d k) c (by omega) hcm] at hEc
              have hcval : c = 4 * k + 3 - pickIdx P d k := by omega
              rw [hcval] at hEc
              exact oP_false_elim hF2 hEc hvm
        · -- parent strictly between the root and the promoted child: untouched
          have hjdesc : isDesc (pickIdx P d k) j = false := not_isDesc_of_lt hjlt
          have hcdesc : isDesc (pickIdx P d k) c = false :=
            not_isDesc_of_parent_lt (by omega) (by omega)
          rw [oP_congr
            (((siftA_get_out P n (lswap d k (pickIdx P d k)) (pickIdx P d k) c hcdesc)).trans
              (lswap_get_other d k (pickIdx P d k) c (by omega) (by omega)))
            (((siftA_get_out P n (lswap d k (pickIdx P d k)) (pickIdx P d k) j hjdesc)).trans
              (lswap_get_other d k (pickIdx P d k) j (by omega) (by omega)))]
          exact hpre j c (by omega) hc
      · exact hEheap j c hjge hc
    · -- no child is preferred: the array already satisfies the order at k
      rename_i hne
      have hmk : pickIdx P d k = k := by
        by_cases h : pickIdx P d k = k
        · exact h
        · exact absurd h (by simpa using hne)
      rcases pickIdx_spec P d k with ⟨_, h1, h2⟩ | ⟨hm, _, _, _⟩ |
        ⟨hm, _, _, _⟩ | ⟨hm, _, _, _, _⟩
      · intro j c hj hc
        rcases Nat.eq_or_lt_of_le hj with rfl | hkj
        · rcases hc with rfl | rfl
          · exact h1
          · exact h2
        · exact hpre j c (by omega) hc
      · omega
      · omega
      · omega

/-- `heapify` at one index with the fuel instantiated to the array length,
which always suffices (`siftA` stops as soon as the index passes the end). -/
def heapifyF (P : α → α → Bool) (d : List α) (i : Nat) : List α :=
  siftA P d.length d i

theorem heapifyF_heapFrom {P : α → α → Bool} (hP : PrOk P) (d : List α) (k : Nat)
    (hpre : HeapFrom P d (k + 1)) : HeapFrom P (heapifyF P d k) k :=
  siftA_heapFrom hP d.length d k (by omega) hpre

theorem heapifyF_length (P : α → α → Bool) (d : List α) (i : Nat) :
    (heapifyF P d i).length = d.length :=
  siftA_length P d.length d i

theorem heapifyF_perm (P : α → α → Bool) (d : List α) (i : Nat) :
    (heapifyF P d i).Perm d :=
  siftA_perm P d.length d i

/-- The loop `for index in range(len(self) // 2, -1, -1): self.heapify(index)`
of `Heap.build`, counting `i` down to `0`. -/
def buildLoopF (P : α → α → Bool) : Nat → List α → List α
  | 0, d => heapifyF P d 0
  | i + 1, d => buildLoopF P i (heapifyF P d (i + 1))

/-- Bottom-up heap construction of `Heap.build` on a data list. -/
def buildListF (P : α → α → Bool) (d : List α) : List α :=
  buildLoopF P (d.length / 2) d

theorem buildLoopF_length (P : α → α → Bool) (i : Nat) (d : List α) :
    (buildLoopF P i d).length = d.length := by
  induction i generalizing d with
  | zero => exact heapifyF_length P d 0
  | succ n ih => rw [buildLoopF, ih, heapifyF_length]

theorem buildLoopF_perm (P : α → α → Bool) (i : Nat) (d : List α) :
    (buildLoopF P i d).Perm d := by
  induction i generalizing d with
  | zero => exact heapifyF_perm P d 0
  | succ n ih => exact (ih _).trans (heapifyF_perm P d (n + 1))

theorem buildLoopF_heapFrom {P : α → α → Bool} (hP : PrOk P) (i : Nat) (d : List α)
    (hpre : HeapFrom P d (i + 1)) : HeapFrom P (buildLoopF P i d) 0 := by
  induction i generalizing d with
  | zero => exact heapifyF_heapFrom hP d 0 hpre
  | succ n ih =>
    refine ih (heapifyF P d (n + 1)) ?_
    exact heapifyF_heapFrom hP d (n + 1) hpre

theorem buildListF_length (P : α → α → Bool) (d : List α) :
    (buildListF P d).length = d.length :=
  buildLoopF_length P _ d

theorem buildListF_perm (P : α → α → Bool) (d : List α) :
    (buildListF P d).Perm d :=
  buildLoopF_perm P _ d

theorem buildListF_heapFrom {P : α → α → Bool} (hP : PrOk P) (d : List α) :
    HeapFrom P (buildListF P d) 0 := by
  refine buildLoopF_heapFrom hP _ d ?_
  exact heapFrom_of_len (by omega)

theorem isDesc_zero (j : Nat) : isDesc 0 j = true := by
  induction j using Nat.strong_induction_on with
  | _ j ih =>
    cases j with
    | zero => exact isDesc_self 0
    | succ n => exact isDesc_of_parent (by omega) (ih _ (by omega))

/-- In a heap-ordered array, the root is weakly preferred to every member. -/
theorem heapFrom_zero_best {P : α → α → Bool} (hP : PrOk P) {d : List α}
    (hH : HeapFrom P d 0) {x r : α} (hx : x ∈ d) (hr : d[0]? = some r) :
    P x r = false := by
  obtain ⟨i, hi, hgi⟩ := List.mem_iff_getElem.mp hx
  exact heapFrom_root_best hP hH i x r (isDesc_zero i)
    (by rw [List.getElem?_eq_getElem hi]; exact congrArg some hgi) hr

/-- Python comparison `a < b` on comparable elements. -/
def pyLt {α : Type _} [LinearOrder α] : α → α → Bool := fun a b => decide (a < b)

/-- The strict-preference function a `Heap` with comparison `ltb` and flag
`config` uses: `max_heapify` moves `a` above `b` when `ltb b a` (source line
`self.data[largest_index] < self.data[left_index]`), `min_heapify` when
`ltb a b` (source line `self.data[left_index] < self.data[smallest_index]`). -/
def prOf (ltb : α → α → Bool) (config : Bool) : α → α → Bool :=
  if config then fun a b => ltb b a else ltb

/-- Embedding of the `graph_heap_pq.Heap` object state: the backing list and
the max/min flag fixed at construction. -/
structure PyHeap (α : Type _) : Type _ where
  data : List α
  config : Bool
deriving DecidableEq

/-- `Heap.heapify(index)`: dispatch on `config` to `max_heapify`/`min_heapify`
(both are `siftA` with the corresponding preference). -/
def ghpHeapify (ltb : α → α → Bool) (h : PyHeap α) (i : Nat) : PyHeap α :=
  { h with data := heapifyF (prOf ltb h.config) h.data i }

/-- `Heap.build(data)`: replace the backing list when a non-empty `data`
argument is supplied, then heapify every index from `len // 2` down to `0`. -/
def ghpBuild (ltb : α → α → Bool) (h : PyHeap α) (newData : List α) : PyHeap α :=
  let d := if newData.isEmpty then h.data else newData
  { h with data := buildListF (prOf ltb h.config) d }

/-- `Heap.__init__(data, config)`: start from an empty list and `build` a copy
of the argument. -/
def mkGhpHeap (ltb : α → α → Bool) (data : List α) (config : Bool) : PyHeap α :=
  ghpBuild ltb { data := [], config := config } data

/-- `Heap.insert(new)`: append, then `build()` (whose empty default argument
keeps the current list). -/
def ghpInsert (ltb : α → α → Bool) (h : PyHeap α) (x : α) : PyHeap α :=
  ghpBuild ltb { h with data := h.data ++ [x] } []

/-- `Heap.delete(to_delete)`: raise on the empty heap, raise when the value is
absent, otherwise remove the first equal occurrence and rebuild. -/
def ghpDelete (ltb : α → α → Bool) [DecidableEq α] (h : PyHeap α) (x : α) :
    Except PyErr (PyHeap α) :=
  if h.data.length = 0 then .error .emptyHeap
  else if x ∈ h.data then .ok (ghpBuild ltb { h with data := h.data.erase x } [])
  else .error .elementNotFound

/-- First index of an element equal to `x`, as Python `list.index(x)` finds it
(`none` models the uncaught `ValueError`). -/
def pyIndex [DecidableEq α] : List α → α → Option Nat
  | [], _ => none
  | a :: t, x => if a = x then some 0 else (pyIndex t x).map (· + 1)

/-- `graph_heap_pq.Heap.update(old, new)`: locate `old` by equality, overwrite
in place and heapify from that index only; when `old` is absent the
`ValueError` is caught and nothing happens. -/
def ghpUpdate (ltb : α → α → Bool) [DecidableEq α] (h : PyHeap α) (old new : α) :
    PyHeap α :=
  match pyIndex h.data old with
  | some i => ghpHeapify ltb { h with data := h.data.set i new } i
  | none => h

/-- `Heap.peek()`: `self.data[0]`, an `IndexError` on the empty heap. -/
def ghpPeek (h : PyHeap α) : Except PyErr α :=
  match h.data[0]? with
  | some a => .ok a
  | none => .error .indexError

/-- `PriorityQueue.dequeue()`: raise `Underflow` when empty, otherwise read
the root with `peek` and `delete` that same value, returning it. -/
def ghpDequeue (ltb : α → α → Bool) [DecidableEq α] (h : PyHeap α) :
    Except PyErr (α × PyHeap α) :=
  if h.data.length = 0 then .error .underflow
  else
    match ghpPeek h with
    | .ok a =>
      match ghpDelete ltb h a with
      | .ok h' => .ok (a, h')
      | .error e => .error e
    | .error e => .error e

/-- The driver loop `while len(pq) > 0: result.append(pq.dequeue())`, with
fuel (the queue length suffices since each dequeue shortens the data). -/
def ghpDequeueList (ltb : α → α → Bool) [DecidableEq α] :
    Nat → PyHeap α → List α
  | 0, _ => []
  | fuel + 1, h =>
    if h.data.length = 0 then []
    else
      match ghpDequeue ltb h with
      | .ok (a, h') => a :: ghpDequeueList ltb fuel h'
      | .error _ => []

/-- `heap_priority_queue.Heap.heapify(index)`: `max_heapify` is the same
sift-down, but `min_heapify` is a placeholder that returns immediately. -/
def hpqHeapify (ltb : α → α → Bool) (h : PyHeap α) (i : Nat) : PyHeap α :=
  if h.config then { h with data := heapifyF (fun a b => ltb b a) h.data i } else h

/-- `heap_priority_queue.Heap.build`: same loop as the `ghp` variant but with
the stubbed `min_heapify`. -/
def hpqBuildLoop (ltb : α → α → Bool) (config : Bool) : Nat → List α → List α
  | 0, d => if config then heapifyF (fun a b => ltb b a) d 0 else d
  | i + 1, d =>
    hpqBuildLoop ltb config i
      (if config then heapifyF (fun a b => ltb b a) d (i + 1) else d)

def hpqBuild (ltb : α → α → Bool) (h : PyHeap α) (newData : List α) : PyHeap α :=
  let d := if newData.isEmpty then h.data else newData
  { h with data := hpqBuildLoop ltb h.config (d.length / 2) d }

def mkHpqHeap (ltb : α → α → Bool) (data : List α) (config : Bool) : PyHeap α :=
  hpqBuild ltb { data := [], config := config } data

def hpqInsert (ltb : α → α → Bool) (h : PyHeap α) (x : α) : PyHeap α :=
  hpqBuild ltb { h with data := h.data ++ [x] } []

def hpqDelete (ltb : α → α → Bool) [DecidableEq α] (h : PyHeap α) (x : α) :
    Except PyErr (PyHeap α) :=
  if h.data.length = 0 then .error .emptyHeap
  else if x ∈ h.data then .ok (hpqBuild ltb { h with data := h.data.erase x } [])
  else .error .elementNotFound

/-- `heap_priority_queue.Heap.update(old, new)`: delete then insert (raises
when `old` is absent or the heap is empty). -/
def hpqUpdate (ltb : α → α → Bool) [DecidableEq α] (h : PyHeap α) (old new : α) :
    Except PyErr (PyHeap α) :=
  match hpqDelete ltb h old with
  | .ok h' => .ok (hpqInsert ltb h' new)
  | .error e => .error e

def hpqDequeue (ltb : α → α → Bool) [DecidableEq α] (h : PyHeap α) :
    Except PyErr (α × PyHeap α) :=
  if h.data.length = 0 then .error .underflow
  else
    match ghpPeek h with
    | .ok a =>
      match hpqDelete ltb h a with
      | .ok h' => .ok (a, h')
      | .error e => .error e
    | .error e => .error e

def hpqDequeueList (ltb : α → α → Bool) [DecidableEq α] :
    Nat → PyHeap α → List α
  | 0, _ => []
  | fuel + 1, h =>
    if h.data.length = 0 then []
    else
      match hpqDequeue ltb h with
      | .ok (a, h') => a :: hpqDequeueList ltb fuel h'
      | .error _ => []

/-- Dequeuing drains the heap in preference order: the output is a permutation
of the backing data in which no later element is strictly preferred to an
earlier one. -/
theorem ghpDequeueList_spec {ltb : α → α → Bool} {cfg : Bool} [DecidableEq α]
    (hP : PrOk (prOf ltb cfg)) :
    ∀ (fuel : Nat) (h : PyHeap α), h.config = cfg →
      HeapFrom (prOf ltb cfg) h.data 0 → h.data.length ≤ fuel →
      (ghpDequeueList ltb fuel h).Perm h.data ∧
        List.Pairwise (fun a b => prOf ltb cfg b a = false)
          (ghpDequeueList ltb fuel h) := by
  intro fuel
  induction fuel with
  | zero =>
    intro h _ _ hlen
    have hnil : h.data = [] := List.length_eq_zero.mp (by omega)
    rw [ghpDequeueList, hnil]
    exact ⟨List.Perm.refl [], List.Pairwise.nil⟩
  | succ n ih =>
    intro h hcfg hheap hlen
    rw [ghpDequeueList]
    cases hd : h.data with
    | nil => simp
    | cons a t =>
      rw [if_neg (by simp : ¬ (a :: t).length = 0)]
      have hlen0 : h.data.length ≠ 0 := by rw [hd]; simp
      have hpeek : ghpPeek h = .ok a := by
        unfold ghpPeek
        rw [hd, List.getElem?_cons_zero]
      have hmem : a ∈ h.data := by rw [hd]; exact List.mem_cons_self a t
      have herase : h.data.erase a = t := by rw [hd]; exact List.erase_cons_head a t
      have hdel : ghpDelete ltb h a =
          .ok (ghpBuild ltb { h with data := t } []) := by
        unfold ghpDelete
        rw [if_neg hlen0, if_pos hmem, herase]
      have hdeq : ghpDequeue ltb h = .ok (a, ghpBuild ltb { h with data := t } []) := by
        unfold ghpDequeue
        rw [if_neg hlen0, hpeek]
        dsimp only
        rw [hdel]
      rw [hdeq]
      have hbdata : (ghpBuild ltb { h with data := t } []).data =
          buildListF (prOf ltb cfg) t := by
        unfold ghpBuild
        rw [hcfg]
        rfl
      have hbcfg : (ghpBuild ltb { h with data := t } []).config = cfg := by
        unfold ghpBuild
        exact hcfg
      have hblen : (ghpBuild ltb { h with data := t } []).data.length ≤ n := by
        rw [hbdata, buildListF_length]
        rw [hd] at hlen
        simpa using hlen
      have hbheap : HeapFrom (prOf ltb cfg)
          (ghpBuild ltb { h with data := t } []).data 0 := by
        rw [hbdata]
        exact buildListF_heapFrom hP t
      obtain ⟨hperm, hpair⟩ := ih (ghpBuild ltb { h with data := t } []) hbcfg hbheap hblen
      rw [hbdata] at hperm
      have hrect : (ghpDequeueList ltb n (ghpBuild ltb { h with data := t } [])).Perm t :=
        hperm.trans (buildListF_perm _ t)
      constructor
      · exact hrect.cons a
      · rw [List.pairwise_cons]
        refine ⟨?_, hpair⟩
        intro x hx
        have hxt : x ∈ t := hrect.mem_iff.mp hx
        have hxd : x ∈ h.data := by rw [hd]; exact List.mem_cons_of_mem a hxt
        have hroot : h.data[0]? = some a := by rw [hd, List.getElem?_cons_zero]
        exact heapFrom_zero_best hP hheap hxd hroot

/-- `PriorityQueue([], cfg)` followed by `enqueue` of every element: the
backing array is a heap-ordered permutation of the enqueued elements. -/
theorem ghpEnqueueFold_spec {ltb : α → α → Bool} {cfg : Bool}
    (hP : PrOk (prOf ltb cfg)) :
    ∀ (l : List α) (h : PyHeap α), h.config = cfg →
      HeapFrom (prOf ltb cfg) h.data 0 →
      (l.foldl (ghpInsert ltb) h).config = cfg ∧
        ((l.foldl (ghpInsert ltb) h).data).Perm (h.data ++ l) ∧
        HeapFrom (prOf ltb cfg) (l.foldl (ghpInsert ltb) h).data 0 := by
  intro l
  induction l with
  | nil =>
    intro h hcfg hheap
    refine ⟨hcfg, ?_, hheap⟩
    simp
  | cons x rest ih =>
    intro h hcfg hheap
    have hins_cfg : (ghpInsert ltb h x).config = cfg := by
      unfold ghpInsert ghpBuild
      exact hcfg
    have hins_data : (ghpInsert ltb h x).data =
        buildListF (prOf ltb cfg) (h.data ++ [x]) := by
      unfold ghpInsert ghpBuild
      rw [hcfg]
      rfl
    have hins_heap : HeapFrom (prOf ltb cfg) (ghpInsert ltb h x).data 0 := by
      rw [hins_data]
      exact buildListF_heapFrom hP _
    obtain ⟨hc, hp, hh⟩ := ih (ghpInsert ltb h x) hins_cfg hins_heap
    refine ⟨hc, ?_, hh⟩
    rw [List.foldl_cons]
    refine hp.trans ?_
    rw [hins_data]
    refine ((buildListF_perm _ _).append_right rest).trans ?_
    have : (h.data ++ [x]) ++ rest = h.data ++ (x :: rest) := by simp
    rw [this]

theorem hpqBuildLoop_max (ltb : α → α → Bool) (i : Nat) (d : List α) :
    hpqBuildLoop ltb true i d = buildLoopF (fun a b => ltb b a) i d := by
  induction i generalizing d with
  | zero => simp [hpqBuildLoop, buildLoopF]
  | succ n ih => simp [hpqBuildLoop, buildLoopF, ih]

theorem prOf_true (ltb : α → α → Bool) : prOf ltb true = fun a b => ltb b a := rfl

theorem hpqBuild_max (ltb : α → α → Bool) (h : PyHeap α) (hc : h.config = true)
    (nd : List α) : hpqBuild ltb h nd = ghpBuild ltb h nd := by
  unfold hpqBuild ghpBuild buildListF
  dsimp only
  rw [hc, hpqBuildLoop_max, prOf_true]

theorem ghpBuild_config (ltb : α → α → Bool) (h : PyHeap α) (nd : List α) :
    (ghpBuild ltb h nd).config = h.config := rfl

theorem ghpInsert_config (ltb : α → α → Bool) (h : PyHeap α) (x : α) :
    (ghpInsert ltb h x).config = h.config := rfl

theorem hpqInsert_max (ltb : α → α → Bool) (h : PyHeap α) (hc : h.config = true)
    (x : α) : hpqInsert ltb h x = ghpInsert ltb h x := by
  unfold hpqInsert ghpInsert
  exact hpqBuild_max ltb ⟨h.data ++ [x], h.config⟩ hc []

theorem hpqDelete_max (ltb : α → α → Bool) [DecidableEq α] (h : PyHeap α)
    (hc : h.config = true) (x : α) : hpqDelete ltb h x = ghpDelete ltb h x := by
  unfold hpqDelete ghpDelete
  rw [hpqBuild_max ltb ⟨h.data.erase x, h.config⟩ hc []]

theorem hpqDequeue_max (ltb : α → α → Bool) [DecidableEq α] (h : PyHeap α)
    (hc : h.config = true) : hpqDequeue ltb h = ghpDequeue ltb h := by
  unfold hpqDequeue ghpDequeue
  simp only [hpqDelete_max ltb h hc]

theorem ghpDelete_ok_config (ltb : α → α → Bool) [DecidableEq α]
    {h h' : PyHeap α} {x : α} (hd : ghpDelete ltb h x = .ok h') :
    h'.config = h.config := by
  unfold ghpDelete at hd
  split at hd
  · cases hd
  · split at hd
    · cases hd
      rfl
    · cases hd

theorem hpqDequeueList_max (ltb : α → α → Bool) [DecidableEq α] :
    ∀ (fuel : Nat) (h : PyHeap α), h.config = true →
      hpqDequeueList ltb fuel h = ghpDequeueList ltb fuel h := by
  intro fuel
  induction fuel with
  | zero => intro h _; rfl
  | succ n ih =>
    intro h hc
    rw [hpqDequeueList, ghpDequeueList, hpqDequeue_max ltb h hc]
    cases hq : ghpDequeue ltb h with
    | ok p =>
      obtain ⟨a, h2⟩ := p
      have hcfg2 : h2.config = h.config := by
        unfold ghpDequeue at hq
        split at hq
        · cases hq
        · split at hq
          · rename_i av hpk
            split at hq
            · rename_i hv hdel
              cases hq
              exact ghpDelete_ok_config ltb hdel
            · cases hq
          · cases hq
      dsimp only
      rw [ih h2 (by rw [hcfg2, hc])]
    | error e => rfl

/-- The invariant exactly as the spec phrases it: for every non-root index
`i`, the entry at the parent index `(i-1)/2` satisfies the configured order
relation against `data[i]` (parent at least the child for a max heap,
parent at most the child for a min heap). -/
def heapParentOrder {α : Type _} [LinearOrder α] (cfg : Bool) (d : List α) : Prop :=
  ∀ i, 0 < i → ∀ a b, d[i]? = some a → d[(i - 1) / 2]? = some b →
    (if cfg then a ≤ b else b ≤ a)

theorem prOk_prOf_pyLt {α : Type _} [LinearOrder α] (cfg : Bool) :
    PrOk (prOf (pyLt (α := α)) cfg) := by
  cases cfg
  · exact prOk_min
  · exact prOk_max

theorem heapFrom_parentOrder {α : Type _} [LinearOrder α] {cfg : Bool} {d : List α}
    (h : HeapFrom (prOf pyLt cfg) d 0) : heapParentOrder cfg d := by
  intro i hi a b ha hb
  have hchild : i = 2 * ((i - 1) / 2) + 1 ∨ i = 2 * ((i - 1) / 2 + 1) := by omega
  have hp := h ((i - 1) / 2) i (Nat.zero_le _) hchild
  rw [oP_some_some ha hb] at hp
  cases cfg
  · have hp' : pyLt a b = false := hp
    simp only [pyLt, decide_eq_false_iff_not] at hp'
    simpa using le_of_not_lt hp'
  · have hp' : pyLt b a = false := hp
    simp only [pyLt, decide_eq_false_iff_not] at hp'
    simpa using le_of_not_lt hp'

/-- One `Heap` mutation of the kind quantified over by the spec. -/
inductive HeapOp (α : Type _) : Type _ where
  | ins (x : α) : HeapOp α
  | del (x : α) : HeapOp α
  | upd (old new : α) : HeapOp α

def isUpdOp : HeapOp α → Bool
  | .upd _ _ => true
  | _ => false

def ghpApplyOp (ltb : α → α → Bool) [DecidableEq α] (h : PyHeap α) :
    HeapOp α → Except PyErr (PyHeap α)
  | .ins x => .ok (ghpInsert ltb h x)
  | .del x => ghpDelete ltb h x
  | .upd a b => .ok (ghpUpdate ltb h a b)

def ghpRunOps (ltb : α → α → Bool) [DecidableEq α] (h : PyHeap α) :
    List (HeapOp α) → Except PyErr (PyHeap α)
  | [] => .ok h
  | op :: rest =>
    match ghpApplyOp ltb h op with
    | .ok h' => ghpRunOps ltb h' rest
    | .error e => .error e

def hpqApplyOp (ltb : α → α → Bool) [DecidableEq α] (h : PyHeap α) :
    HeapOp α → Except PyErr (PyHeap α)
  | .ins x => .ok (hpqInsert ltb h x)
  | .del x => hpqDelete ltb h x
  | .upd a b => hpqUpdate ltb h a b

def hpqRunOps (ltb : α → α → Bool) [DecidableEq α] (h : PyHeap α) :
    List (HeapOp α) → Except PyErr (PyHeap α)
  | [] => .ok h
  | op :: rest =>
    match hpqApplyOp ltb h op with
    | .ok h' => hpqRunOps ltb h' rest
    | .error e => .error e

theorem mkGhpHeap_config (ltb : α → α → Bool) (l : List α) (cfg : Bool) :
    (mkGhpHeap ltb l cfg).config = cfg := rfl

theorem mkGhpHeap_heapFrom {ltb : α → α → Bool} {cfg : Bool}
    (hP : PrOk (prOf ltb cfg)) (l : List α) :
    HeapFrom (prOf ltb cfg) (mkGhpHeap ltb l cfg).data 0 := by
  unfold mkGhpHeap ghpBuild
  exact buildListF_heapFrom hP _

theorem ghpDelete_ok_data (ltb : α → α → Bool) [DecidableEq α]
    {h h' : PyHeap α} {x : α} (hd : ghpDelete ltb h x = .ok h') :
    h'.data = buildListF (prOf ltb h.config) (h.data.erase x) := by
  unfold ghpDelete at hd
  split at hd
  · cases hd
  · split at hd
    · cases hd
      rfl
    · cases hd

/-- Any update-free sequence of `insert` / `delete` that runs to completion
leaves the `graph_heap_pq` heap heap-ordered (each of those operations ends
in a full `build`). -/
theorem ghpRunOps_heapFrom {ltb : α → α → Bool} {cfg : Bool} [DecidableEq α]
    (hP : PrOk (prOf ltb cfg)) :
    ∀ (ops : List (HeapOp α)) (h : PyHeap α), h.config = cfg →
      HeapFrom (prOf ltb cfg) h.data 0 →
      (∀ op ∈ ops, isUpdOp op = false) →
      ∀ h', ghpRunOps ltb h ops = .ok h' →
        h'.config = cfg ∧ HeapFrom (prOf ltb cfg) h'.data 0 := by
  intro ops
  induction ops with
  | nil =>
    intro h hc hh _ h' hrun
    cases hrun
    exact ⟨hc, hh⟩
  | cons op rest ih =>
    intro h hc hh hupd h' hrun
    rw [ghpRunOps] at hrun
    cases op with
    | ins x =>
      have happ : ghpApplyOp ltb h (.ins x) = .ok (ghpInsert ltb h x) := rfl
      rw [happ] at hrun
      refine ih (ghpInsert ltb h x) ?_ ?_ ?_ h' hrun
      · rw [ghpInsert_config]; exact hc
      · have : (ghpInsert ltb h x).data = buildListF (prOf ltb cfg) (h.data ++ [x]) := by
          unfold ghpInsert ghpBuild
          rw [hc]
          rfl
        rw [this]
        exact buildListF_heapFrom hP _
      · intro o ho
        exact hupd o (List.mem_cons_of_mem _ ho)
    | del x =>
      have happ : ghpApplyOp ltb h (.del x) = ghpDelete ltb h x := rfl
      rw [happ] at hrun
      cases hdel : ghpDelete ltb h x with
      | ok h1 =>
        rw [hdel] at hrun
        refine ih h1 ?_ ?_ ?_ h' hrun
        · rw [ghpDelete_ok_config ltb hdel]; exact hc
        · rw [ghpDelete_ok_data ltb hdel, hc]
          exact buildListF_heapFrom hP _
        · intro o ho
          exact hupd o (List.mem_cons_of_mem _ ho)
      | error e =>
        rw [hdel] at hrun
        cases hrun
    | upd a b =>
      have : isUpdOp (HeapOp.upd a b) = false := hupd _ (List.mem_cons_self _ _)
      simp [isUpdOp] at this

theorem hpqBuild_config (ltb : α → α → Bool) (h : PyHeap α) (nd : List α) :
    (hpqBuild ltb h nd).config = h.config := rfl

theorem hpqInsert_config (ltb : α → α → Bool) (h : PyHeap α) (x : α) :
    (hpqInsert ltb h x).config = h.config := rfl

theorem hpqUpdate_ok (ltb : α → α → Bool) [DecidableEq α] {h h' : PyHeap α}
    {a b : α} (hu : hpqUpdate ltb h a b = .ok h') :
    ∃ h1, hpqDelete ltb h a = .ok h1 ∧ h' = hpqInsert ltb h1 b := by
  unfold hpqUpdate at hu
  split at hu
  · rename_i h1 hdel
    cases hu
    exact ⟨h1, hdel, rfl⟩
  · cases hu

theorem hpqDelete_ok_config (ltb : α → α → Bool) [DecidableEq α]
    {h h' : PyHeap α} {x : α} (hd : hpqDelete ltb h x = .ok h') :
    h'.config = h.config := by
  unfold hpqDelete at hd
  split at hd
  · cases hd
  · split at hd
    · cases hd
      rfl
    · cases hd

/-- In the `heap_priority_queue` variant every max-heap mutation — `update`
included, since there it is delete-then-insert — ends in a full `build` and
restores the heap order. -/
theorem hpqRunOps_heapFrom {ltb : α → α → Bool} [DecidableEq α]
    (hP : PrOk (prOf ltb true)) :
    ∀ (ops : List (HeapOp α)) (h : PyHeap α), h.config = true →
      HeapFrom (prOf ltb true) h.data 0 →
      ∀ h', hpqRunOps ltb h ops = .ok h' →
        h'.config = true ∧ HeapFrom (prOf ltb true) h'.data 0 := by
  have hinsOk : ∀ (g : PyHeap α) (x : α), g.config = true →
      (hpqInsert ltb g x).config = true ∧
        HeapFrom (prOf ltb true) (hpqInsert ltb g x).data 0 := by
    intro g x hg
    constructor
    · rw [hpqInsert_config]; exact hg
    · rw [hpqInsert_max ltb g hg x]
      have hdata : (ghpInsert ltb g x).data =
          buildListF (prOf ltb true) (g.data ++ [x]) := by
        unfold ghpInsert ghpBuild
        rw [hg]
        rfl
      rw [hdata]
      exact buildListF_heapFrom hP _
  have hdelOk : ∀ (g g1 : PyHeap α) (x : α), g.config = true →
      hpqDelete ltb g x = .ok g1 →
      g1.config = true ∧ HeapFrom (prOf ltb true) g1.data 0 := by
    intro g g1 x hg hdel
    rw [hpqDelete_max ltb g hg] at hdel
    constructor
    · rw [ghpDelete_ok_config ltb hdel]; exact hg
    · rw [ghpDelete_ok_data ltb hdel, hg]
      exact buildListF_heapFrom hP _
  intro ops
  induction ops with
  | nil =>
    intro h hc hh h' hrun
    cases hrun
    exact ⟨hc, hh⟩
  | cons op rest ih =>
    intro h hc hh h' hrun
    rw [hpqRunOps] at hrun
    cases op with
    | ins x =>
      have happ : hpqApplyOp ltb h (.ins x) = .ok (hpqInsert ltb h x) := rfl
      rw [happ] at hrun
      obtain ⟨hc1, hh1⟩ := hinsOk h x hc
      exact ih (hpqInsert ltb h x) hc1 hh1 h' hrun
    | del x =>
      have happ : hpqApplyOp ltb h (.del x) = hpqDelete ltb h x := rfl
      rw [happ] at hrun
      cases hdel : hpqDelete ltb h x with
      | ok h1 =>
        rw [hdel] at hrun
        obtain ⟨hc1, hh1⟩ := hdelOk h h1 x hc hdel
        exact ih h1 hc1 hh1 h' hrun
      | error e =>
        rw [hdel] at hrun
        cases hrun
    | upd a b =>
      have happ : hpqApplyOp ltb h (.upd a b) = hpqUpdate ltb h a b := rfl
      rw [happ] at hrun
      cases hupd : hpqUpdate ltb h a b with
      | ok h1 =>
        rw [hupd] at hrun
        obtain ⟨h2, hdel, heq⟩ := hpqUpdate_ok ltb hupd
        obtain ⟨hc2, _⟩ := hdelOk h h2 a hc hdel
        obtain ⟨hc1, hh1⟩ := heq ▸ hinsOk h2 b hc2
        exact ih h1 hc1 hh1 h' hrun
      | error e =>
        rw [hupd] at hrun
        cases hrun

theorem mkHpqHeap_true (ltb : α → α → Bool) (l : List α) :
    mkHpqHeap ltb l true = mkGhpHeap ltb l true := by
  unfold mkHpqHeap mkGhpHeap
  exact hpqBuild_max ltb ⟨[], true⟩ rfl l

theorem foldl_hpqInsert_max (ltb : α → α → Bool) :
    ∀ (l : List α) (h : PyHeap α), h.config = true →
      l.foldl (hpqInsert ltb) h = l.foldl (ghpInsert ltb) h := by
  intro l
  induction l with
  | nil => intro h _; rfl
  | cons x rest ih =>
    intro h hc
    rw [List.foldl_cons, List.foldl_cons, hpqInsert_max ltb h hc x]
    exact ih (ghpInsert ltb h x) (by rw [ghpInsert_config]; exact hc)

theorem foldl_ghpInsert_config (ltb : α → α → Bool) :
    ∀ (l : List α) (h : PyHeap α), (l.foldl (ghpInsert ltb) h).config = h.config := by
  intro l
  induction l with
  | nil => intro h; rfl
  | cons x rest ih =>
    intro h
    rw [List.foldl_cons, ih, ghpInsert_config]

theorem pyIndex_eq_none [DecidableEq α] :
    ∀ (l : List α) (x : α), x ∉ l → pyIndex l x = none := by
  intro l
  induction l with
  | nil => intro x _; rfl
  | cons a t ih =>
    intro x hx
    rw [pyIndex]
    rw [if_neg (fun h => hx (by rw [← h]; exact List.mem_cons_self a t)),
      ih x fun h => hx (List.mem_cons_of_mem a h)]
    rfl

/-- The per-config output of enqueuing a whole list into an initially empty
`graph_heap_pq.PriorityQueue` and then dequeuing until empty. -/
def ghpHeapSortOut {α : Type _} [LinearOrder α] [DecidableEq α]
    (cfg : Bool) (l : List α) : List α :=
  ghpDequeueList pyLt (l.foldl (ghpInsert pyLt) (mkGhpHeap pyLt [] cfg)).data.length
    (l.foldl (ghpInsert pyLt) (mkGhpHeap pyLt [] cfg))

/-- The same experiment against the `heap_priority_queue` variant. -/
def hpqHeapSortOut {α : Type _} [LinearOrder α] [DecidableEq α]
    (cfg : Bool) (l : List α) : List α :=
  hpqDequeueList pyLt (l.foldl (hpqInsert pyLt) (mkHpqHeap pyLt [] cfg)).data.length
    (l.foldl (hpqInsert pyLt) (mkHpqHeap pyLt [] cfg))

theorem ghpHeapSortOut_spec {α : Type _} [LinearOrder α] [DecidableEq α]
    (cfg : Bool) (l : List α) :
    (ghpHeapSortOut cfg l).Perm l ∧
      List.Pairwise (fun a b => prOf pyLt cfg b a = false) (ghpHeapSortOut cfg l) := by
  have hP := prOk_prOf_pyLt (α := α) cfg
  have hmkc : (mkGhpHeap (pyLt (α := α)) [] cfg).config = cfg := rfl
  have hmkh : HeapFrom (prOf pyLt cfg) (mkGhpHeap (pyLt (α := α)) [] cfg).data 0 :=
    mkGhpHeap_heapFrom hP []
  obtain ⟨hc, hp, hh⟩ := ghpEnqueueFold_spec hP l (mkGhpHeap pyLt [] cfg) hmkc hmkh
  obtain ⟨hperm, hpair⟩ := ghpDequeueList_spec hP
    (l.foldl (ghpInsert pyLt) (mkGhpHeap pyLt [] cfg)).data.length
    (l.foldl (ghpInsert pyLt) (mkGhpHeap pyLt [] cfg)) hc hh (le_refl _)
  refine ⟨?_, hpair⟩
  refine hperm.trans ?_
  have hmkd : (mkGhpHeap (pyLt (α := α)) [] cfg).data = [] := by
    with_unfolding_all rfl
  rw [hmkd] at hp
  simpa using hp

/-- C2 counterexample: the claim fails as stated.  In `graph_heap_pq`, a
min-heap built from `[1, 2, 3]` and then hit with `update(3, 0)` ends as
`[1, 2, 0]`, whose index `2` has parent `data[0] = 1 > 0` (update only sifts
down from the overwritten index).  In `heap_priority_queue`, a min-config
heap receiving `insert(2)` then `insert(1)` ends as `[2, 1]` (its
`min_heapify` is a placeholder), violating the parent order at index `1`. -/
theorem c2_counterexample :
    ghpRunOps pyLt (mkGhpHeap pyLt [(1 : Int), 2, 3] false) [.upd 3 0] =
        .ok { data := [1, 2, 0], config := false } ∧
    ¬ heapParentOrder false [(1 : Int), 2, 0] ∧
    hpqRunOps pyLt (mkHpqHeap pyLt ([] : List Int) false) [.ins 2, .ins 1] =
        .ok { data := [2, 1], config := false } ∧
    ¬ heapParentOrder false [(2 : Int), 1] := by
  refine ⟨by decide, ?_, by decide, ?_⟩
  · intro hord
    have h1 := hord 2 (by omega) 0 1 (by decide) (by decide)
    simp at h1
  · intro hord
    have h1 := hord 1 (by omega) 1 2 (by decide) (by decide)
    simp at h1

/-- C2 (amended): after any completed sequence of `insert` and `delete`
operations on a `graph_heap_pq` heap of either configuration, every non-root
index satisfies the configured order against its parent at `(i-1)/2`; the
same holds for a max-config `heap_priority_queue` heap even with `update`
included (there update is delete-then-insert).  (`update` in `graph_heap_pq`
and the min config of `heap_priority_queue` are excluded: the
counterexample shows both break the invariant.) -/
theorem c2_heap_invariant_amended :
    (∀ (α : Type) [inst : LinearOrder α] [instd : DecidableEq α] (cfg : Bool)
        (init : List α) (ops : List (HeapOp α)) (hfin : PyHeap α),
        (∀ op ∈ ops, isUpdOp op = false) →
        ghpRunOps pyLt (mkGhpHeap pyLt init cfg) ops = .ok hfin →
        heapParentOrder cfg hfin.data) ∧
    (∀ (α : Type) [inst : LinearOrder α] [instd : DecidableEq α]
        (init : List α) (ops : List (HeapOp α)) (hfin : PyHeap α),
        hpqRunOps pyLt (mkHpqHeap pyLt init true) ops = .ok hfin →
        heapParentOrder true hfin.data) := by
  constructor
  · intro α inst instd cfg init ops hfin hupd hrun
    have hP := prOk_prOf_pyLt (α := α) cfg
    obtain ⟨_, hheap⟩ := ghpRunOps_heapFrom hP ops (mkGhpHeap pyLt init cfg)
      (mkGhpHeap_config _ _ _) (mkGhpHeap_heapFrom hP init) hupd hfin hrun
    exact heapFrom_parentOrder hheap
  · intro α inst instd init ops hfin hrun
    have hP := prOk_prOf_pyLt (α := α) true
    rw [mkHpqHeap_true] at hrun
    obtain ⟨_, hheap⟩ := hpqRunOps_heapFrom hP ops (mkGhpHeap pyLt init true)
      (mkGhpHeap_config _ _ _) (mkGhpHeap_heapFrom hP init) hfin hrun
    exact heapFrom_parentOrder hheap

/-- Witness for C2: a concrete min-heap run `insert(0); delete(3)` from
initial data `[3, 1, 2]` ends heap-ordered. -/
theorem c2_heap_invariant_amended_witness :
    heapParentOrder false [(0 : Int), 1, 2] :=
  c2_heap_invariant_amended.1 Int false [3, 1, 2] [.ins 0, .del 3]
    { data := [0, 1, 2], config := false } (by decide) (by decide)

/-- C4 counterexample: in the `heap_priority_queue` variant with the min-heap
configuration, enqueuing `2` then `1` and dequeuing twice yields `[2, 1]`,
not the ascending order the claim promises (its `min_heapify` is a stub). -/
theorem c4_counterexample :
    hpqHeapSortOut false [(2 : Int), 1] = [2, 1] ∧
    ¬ List.Sorted (· ≤ ·) [(2 : Int), 1] := by
  constructor
  · decide
  · intro h
    have := List.rel_of_sorted_cons h 1 (by decide)
    omega

/-- C4 (amended): enqueuing any list of mutually comparable elements and then
dequeuing until empty returns a permutation of the list, sorted descending
for the max configuration (in both heap variants) and sorted ascending for
the min configuration of the `graph_heap_pq` variant.  (The min configuration
of `heap_priority_queue` is excluded by the counterexample.) -/
theorem c4_dequeue_order_amended :
    ∀ (α : Type) [inst : LinearOrder α] [instd : DecidableEq α] (l : List α),
      ((ghpHeapSortOut true l).Perm l ∧ List.Sorted (· ≥ ·) (ghpHeapSortOut true l)) ∧
      ((ghpHeapSortOut false l).Perm l ∧ List.Sorted (· ≤ ·) (ghpHeapSortOut false l)) ∧
      ((hpqHeapSortOut true l).Perm l ∧ List.Sorted (· ≥ ·) (hpqHeapSortOut true l)) := by
  intro α inst instd l
  have hmax := ghpHeapSortOut_spec (α := α) true l
  have hmin := ghpHeapSortOut_spec (α := α) false l
  have hpqeq : hpqHeapSortOut true l = ghpHeapSortOut true l := by
    unfold hpqHeapSortOut ghpHeapSortOut
    rw [mkHpqHeap_true, foldl_hpqInsert_max pyLt l (mkGhpHeap pyLt [] true) rfl,
      hpqDequeueList_max pyLt _ _ (foldl_ghpInsert_config pyLt l _)]
  refine ⟨⟨hmax.1, ?_⟩, ⟨hmin.1, ?_⟩, ?_⟩
  · refine hmax.2.imp ?_
    intro a b hab
    have : pyLt a b = false := hab
    simp only [pyLt, decide_eq_false_iff_not] at this
    exact le_of_not_lt this
  · refine hmin.2.imp ?_
    intro a b hab
    have : pyLt b a = false := hab
    simp only [pyLt, decide_eq_false_iff_not] at this
    exact le_of_not_lt this
  · rw [hpqeq]
    refine ⟨hmax.1, ?_⟩
    refine hmax.2.imp ?_
    intro a b hab
    have : pyLt a b = false := hab
    simp only [pyLt, decide_eq_false_iff_not] at this
    exact le_of_not_lt this

/-- C8 counterexample: `graph_heap_pq.Heap.update` on a value absent from the
heap raises nothing at all — it returns with the heap unchanged (the
`ValueError` from `list.index` is caught and ignored), where the claim
requires an `ElementNotFound` failure. -/
theorem c8_counterexample :
    (7 : Int) ∉ ({ data := [5], config := true } : PyHeap Int).data ∧
    ghpUpdate pyLt ({ data := [5], config := true } : PyHeap Int) 7 0 =
      { data := [5], config := true } := by
  constructor
  · decide
  · decide

/-- C8 (amended): `delete` fails with `EmptyHeap` exactly on the empty heap
and with `ElementNotFound` exactly when the value is absent from a non-empty
heap, succeeding otherwise; `peek` fails exactly on the empty heap, though
through an uncaught `IndexError` rather than an `EmptyHeap` check; and
`update` on an absent value is a silent no-op that leaves the heap's contents
unchanged (failures never mutate the heap, which in this embedding is
immediate since an `error` result carries no new state). -/
theorem c8_heap_errors_amended :
    ∀ (α : Type) [inst : LinearOrder α] [instd : DecidableEq α]
      (h : PyHeap α) (x old new : α),
      (h.data = [] → ghpDelete pyLt h x = .error .emptyHeap) ∧
      (h.data ≠ [] → x ∉ h.data → ghpDelete pyLt h x = .error .elementNotFound) ∧
      (h.data ≠ [] → x ∈ h.data → ∃ h', ghpDelete pyLt h x = .ok h') ∧
      (ghpPeek h = .error .indexError ↔ h.data = []) ∧
      (old ∉ h.data → ghpUpdate pyLt h old new = h) := by
  intro α inst instd h x old new
  refine ⟨?_, ?_, ?_, ?_, ?_⟩
  · intro hnil
    unfold ghpDelete
    rw [if_pos (by rw [hnil]; rfl)]
  · intro hne hx
    unfold ghpDelete
    rw [if_neg (fun hl => hne (List.length_eq_zero.mp hl)), if_neg hx]
  · intro hne hx
    unfold ghpDelete
    rw [if_neg (fun hl => hne (List.length_eq_zero.mp hl)), if_pos hx]
    exact ⟨_, rfl⟩
  · unfold ghpPeek
    constructor
    · intro hpk
      cases hd : h.data with
      | nil => rfl
      | cons a t =>
        rw [hd, List.getElem?_cons_zero] at hpk
        cases hpk
    · intro hnil
      rw [hnil]
      rfl
  · intro hold
    unfold ghpUpdate
    rw [pyIndex_eq_none h.data old hold]

/-- Witness for C8: on the heap `[1, 2]` the amended failure semantics hold,
instantiated at `x = 5`. -/
theorem c8_heap_errors_amended_witness :
    ghpDelete pyLt ({ data := [(1 : Int), 2], config := true } : PyHeap Int) 5 =
      .error .elementNotFound :=
  (c8_heap_errors_amended Int { data := [(1 : Int), 2], config := true }
    5 5 5).2.1 (by decide) (by decide)

/-- `Graph._buildRelation` of `graph_heap_pq`: a directed graph keeps the
supplied edge list; an undirected one collects each triple and its reverse
into a set.  The Python `set` is modelled as an insertion-ordered
duplicate-free list (set iteration order is unspecified in Python; every
property proved below that reads the relation list is either order-invariant
or stated under hypotheses making it so).  All supplied relations are
3-tuples, so the `len(el) == 3` guard of the source is always taken.
`relStep` is one iteration of the collection loop: add the triple unless
already present, then its reverse unless already present. -/
def relStep (acc : List (Nat × Nat × Int)) (el : Nat × Nat × Int) :
    List (Nat × Nat × Int) :=
  let acc1 := if el ∈ acc then acc else acc ++ [el]
  let rev := (el.2.1, el.1, el.2.2)
  if rev ∈ acc1 then acc1 else acc1 ++ [rev]

def ghpBuildRelation (directed : Bool) (e : List (Nat × Nat × Int)) :
    List (Nat × Nat × Int) :=
  if directed then e
  else e.foldl relStep []

/-- `Graph._buildEncoding`: one pass over the vertex list assigning
consecutive indices, filling the `encoder` and `decoder` dictionaries. -/
def encLoop : List Nat → Nat → (Nat → Option Nat) → (Nat → Option Nat) →
    ((Nat → Option Nat) × (Nat → Option Nat))
  | [], _, enc, dec => (enc, dec)
  | v :: rest, i, enc, dec =>
    encLoop rest (i + 1) (fun x => if x = v then some i else enc x)
      (fun x => if x = i then some v else dec x)

def ghpEncoder (vs : List Nat) : Nat → Option Nat :=
  (encLoop vs 0 (fun _ => none) (fun _ => none)).1

def ghpDecoder (vs : List Nat) : Nat → Option Nat :=
  (encLoop vs 0 (fun _ => none) (fun _ => none)).2

/-- `Graph._buildAdjList` first pass: every vertex starts with an empty
neighbor list (`self.adjList[v] = []`). -/
def ghpAdjInit (vs : List Nat) : Nat → Option (List (Nat × Int)) :=
  vs.foldl (fun f v => fun x => if x = v then some [] else f x) (fun _ => none)

/-- `Graph._buildAdjList` second pass: append `(destination, weight)` to the
source vertex's entry; a missing key is Python's `KeyError`. -/
def ghpAdjFill : List (Nat × Nat × Int) → (Nat → Option (List (Nat × Int))) →
    Except PyErr (Nat → Option (List (Nat × Int)))
  | [], f => .ok f
  | r :: rest, f =>
    match f r.1 with
    | some l =>
      ghpAdjFill rest (fun x => if x = r.1 then some (l ++ [(r.2.1, r.2.2)]) else f x)
    | none => .error .keyError

/-- The `n × n` zero matrix `Graph._buildAdjMatrix` starts from. -/
def matInit (n : Nat) : List (List Int) :=
  List.replicate n (List.replicate n 0)

/-- `self.adjMat[row][col] = w` (row/column indices are encoder values, always
in range for a constructed graph; out-of-range writes are no-ops here). -/
def setCell (m : List (List Int)) (r c : Nat) (w : Int) : List (List Int) :=
  match m[r]? with
  | some row => m.set r (row.set c w)
  | none => m

/-- Read matrix cell `(r, c)`; `none` when out of range. -/
def cellGet (m : List (List Int)) (r c : Nat) : Option Int :=
  m[r]?.bind (fun row => row[c]?)

/-- `Graph._buildAdjMatrix` loop: each relation writes its weight at
`(encoder[u], encoder[v])`; a vertex missing from the encoder is a
`KeyError`. -/
def matFill (encf : Nat → Option Nat) : List (Nat × Nat × Int) → List (List Int) →
    Except PyErr (List (List Int))
  | [], m => .ok m
  | r :: rest, m =>
    match encf r.1, encf r.2.1 with
    | some row, some col => matFill encf rest (setCell m row col r.2.2)
    | _, _ => .error .keyError

/-- `Graph._buildWeight`: the `(source, destination) → weight` dictionary. -/
def ghpBuildWeight (rels : List (Nat × Nat × Int)) : Nat × Nat → Option Int :=
  rels.foldl (fun f r => fun p => if p = (r.1, r.2.1) then some r.2.2 else f p)
    (fun _ => none)

/-- Embedding of a constructed `graph_heap_pq.Graph`. -/
structure GhpGraph : Type where
  vertexes : List Nat
  directed : Bool
  relations : List (Nat × Nat × Int)
  adjList : Nat → Option (List (Nat × Int))
  encoder : Nat → Option Nat
  decoder : Nat → Option Nat
  adjMat : List (List Int)
  weight : Nat × Nat → Option Int

/-- `Graph.__init__(v, e, directed)`: build the relation set, the adjacency
list, the encoding, the adjacency matrix and the weight lookup, in source
order; the first missing-key lookup aborts construction with `KeyError`. -/
def mkGhpGraph (v : List Nat) (e : List (Nat × Nat × Int)) (directed : Bool) :
    Except PyErr GhpGraph :=
  let rels := ghpBuildRelation directed e
  match ghpAdjFill rels (ghpAdjInit v) with
  | .error err => .error err
  | .ok adj =>
    match matFill (ghpEncoder v) rels (matInit v.length) with
    | .error err => .error err
    | .ok mat =>
      .ok { vertexes := v, directed := directed, relations := rels, adjList := adj,
            encoder := ghpEncoder v, decoder := ghpDecoder v, adjMat := mat,
            weight := ghpBuildWeight rels }

def exceptIsOk : Except ε β → Bool
  | .ok _ => true
  | .error _ => false

/-- Unpack a construction known to succeed (dummy empty graph otherwise). -/
def ghpGraphOfOk (r : Except PyErr GhpGraph) : GhpGraph :=
  match r with
  | .ok g => g
  | .error _ =>
    { vertexes := [], directed := true, relations := [], adjList := fun _ => none,
      encoder := fun _ => none, decoder := fun _ => none, adjMat := [],
      weight := fun _ => none }

theorem ghpAdjInit_spec (vs : List Nat) (x : Nat) :
    ghpAdjInit vs x = if x ∈ vs then some [] else none := by
  unfold ghpAdjInit
  suffices h : ∀ (f0 : Nat → Option (List (Nat × Int))),
      (vs.foldl (fun f v => fun x => if x = v then some [] else f x) f0) x =
        if x ∈ vs then some [] else f0 x by
    simpa using h (fun _ => none)
  induction vs with
  | nil => intro f0; simp
  | cons v rest ih =>
    intro f0
    rw [List.foldl_cons, ih]
    by_cases hx : x ∈ rest
    · simp [hx]
    · by_cases hxv : x = v
      · simp [hx, hxv]
      · simp [hx, hxv, List.mem_cons]

theorem encLoop_fst_spec :
    ∀ (vs : List Nat) (i0 : Nat) (e0 d0 : Nat → Option Nat) (v i : Nat),
      (encLoop vs i0 e0 d0).1 v = some i →
      (i0 ≤ i ∧ vs[i - i0]? = some v) ∨ e0 v = some i := by
  intro vs
  induction vs with
  | nil => intro i0 e0 d0 v i h; exact Or.inr h
  | cons v' rest ih =>
    intro i0 e0 d0 v i h
    rw [encLoop] at h
    rcases ih (i0 + 1) _ _ v i h with ⟨hle, hget⟩ | he
    · left
      refine ⟨by omega, ?_⟩
      have : i - i0 = (i - (i0 + 1)) + 1 := by omega
      rw [this, List.getElem?_cons_succ]
      exact hget
    · by_cases hv : v = v'
      · rw [if_pos hv] at he
        cases he
        left
        refine ⟨le_refl _, ?_⟩
        simp [hv]
      · rw [if_neg hv] at he
        exact Or.inr he

theorem encLoop_fst_out :
    ∀ (vs : List Nat) (i0 : Nat) (e0 d0 : Nat → Option Nat) (v : Nat),
      v ∉ vs → (encLoop vs i0 e0 d0).1 v = e0 v := by
  intro vs
  induction vs with
  | nil => intro i0 e0 d0 v _; rfl
  | cons v' rest ih =>
    intro i0 e0 d0 v hv
    rw [encLoop, ih _ _ _ _ (fun h => hv (List.mem_cons_of_mem _ h)),
      if_neg (fun h => hv (by rw [h]; exact List.mem_cons_self v' rest))]

theorem encLoop_fst_mem :
    ∀ (vs : List Nat) (i0 : Nat) (e0 d0 : Nat → Option Nat) (v : Nat),
      v ∈ vs → ∃ i, (encLoop vs i0 e0 d0).1 v = some i := by
  intro vs
  induction vs with
  | nil => intro i0 e0 d0 v hv; cases hv
  | cons v' rest ih =>
    intro i0 e0 d0 v hv
    by_cases hr : v ∈ rest
    · rw [encLoop]
      exact ih _ _ _ v hr
    · have hv' : v = v' := by
        rcases List.mem_cons.mp hv with h | h
        · exact h
        · exact absurd h hr
      rw [encLoop, encLoop_fst_out rest _ _ _ v hr, if_pos hv']
      exact ⟨i0, rfl⟩

theorem ghpEncoder_some {vs : List Nat} {v i : Nat}
    (h : ghpEncoder vs v = some i) : vs[i]? = some v := by
  rcases encLoop_fst_spec vs 0 _ _ v i h with ⟨_, hget⟩ | he
  · simpa using hget
  · cases he

theorem ghpEncoder_mem {vs : List Nat} {v : Nat} (h : v ∈ vs) :
    ∃ i, ghpEncoder vs v = some i :=
  encLoop_fst_mem vs 0 _ _ v h

theorem ghpEncoder_not_mem {vs : List Nat} {v : Nat} (h : v ∉ vs) :
    ghpEncoder vs v = none :=
  encLoop_fst_out vs 0 _ _ v h

theorem ghpEncoder_mem_of_some {vs : List Nat} {v i : Nat}
    (h : ghpEncoder vs v = some i) : v ∈ vs := by
  have h2 := ghpEncoder_some h
  have h3 := List.getElem?_eq_some.mp h2
  obtain ⟨hlt, hget⟩ := h3
  rw [← hget]
  exact List.getElem_mem hlt

theorem ghpEncoder_lt_of_some {vs : List Nat} {v i : Nat}
    (h : ghpEncoder vs v = some i) : i < vs.length := by
  have := ghpEncoder_some h
  exact (List.getElem?_eq_some.mp this).1

theorem ghpEncoder_inj {vs : List Nat} {u v i : Nat}
    (hu : ghpEncoder vs u = some i) (hv : ghpEncoder vs v = some i) : u = v := by
  have h1 := ghpEncoder_some hu
  have h2 := ghpEncoder_some hv
  rw [h1] at h2
  exact Option.some.inj h2

theorem encLoop_snd_lt :
    ∀ (vs : List Nat) (i0 : Nat) (e0 d0 : Nat → Option Nat) (x : Nat),
      x < i0 → (encLoop vs i0 e0 d0).2 x = d0 x := by
  intro vs
  induction vs with
  | nil => intro i0 e0 d0 x _; rfl
  | cons v' rest ih =>
    intro i0 e0 d0 x hx
    rw [encLoop, ih _ _ _ _ (by omega), if_neg (by omega)]

theorem encLoop_snd_ge :
    ∀ (vs : List Nat) (i0 : Nat) (e0 d0 : Nat → Option Nat) (x : Nat), i0 ≤ x →
      (encLoop vs i0 e0 d0).2 x =
        match vs[x - i0]? with
        | some v => some v
        | none => d0 x := by
  intro vs
  induction vs with
  | nil => intro i0 e0 d0 x _; rfl
  | cons v' rest ih =>
    intro i0 e0 d0 x hx
    rw [encLoop]
    by_cases hxe : x = i0
    · rw [encLoop_snd_lt rest (i0 + 1) _ _ x (by omega), if_pos hxe]
      have : x - i0 = 0 := by omega
      rw [this, List.getElem?_cons_zero]
    · rw [ih (i0 + 1) _ _ x (by omega)]
      have : x - i0 = (x - (i0 + 1)) + 1 := by omega
      rw [this, List.getElem?_cons_succ]
      cases rest[x - (i0 + 1)]? with
      | some v => rfl
      | none => simp [if_neg hxe]

theorem ghpDecoder_spec (vs : List Nat) (i : Nat) : ghpDecoder vs i = vs[i]? := by
  unfold ghpDecoder
  rw [encLoop_snd_ge vs 0 _ _ i (Nat.zero_le i)]
  simp only [Nat.sub_zero]
  cases vs[i]? <;> rfl

theorem ghpAdjFill_none_iff :
    ∀ (rels : List (Nat × Nat × Int)) (f g : Nat → Option (List (Nat × Int))),
      ghpAdjFill rels f = .ok g → ∀ x, (g x = none ↔ f x = none) := by
  intro rels
  induction rels with
  | nil =>
    intro f g h x
    cases h
    rfl
  | cons r rest ih =>
    intro f g h x
    rw [ghpAdjFill] at h
    cases hf : f r.1 with
    | none => rw [hf] at h; cases h
    | some l =>
      rw [hf] at h
      have := ih _ g h x
      rw [this]
      by_cases hx : x = r.1
      · subst hx
        simp [hf]
      · simp [hx]

theorem ghpAdjFill_ok_iff :
    ∀ (rels : List (Nat × Nat × Int)) (f : Nat → Option (List (Nat × Int))),
      (∃ g, ghpAdjFill rels f = .ok g) ↔ ∀ r ∈ rels, f r.1 ≠ none := by
  intro rels
  induction rels with
  | nil =>
    intro f
    exact ⟨fun _ => by simp, fun _ => ⟨f, rfl⟩⟩
  | cons r rest ih =>
    intro f
    rw [ghpAdjFill]
    cases hf : f r.1 with
    | none =>
      constructor
      · intro ⟨g, hg⟩; cases hg
      · intro hall
        exact absurd hf (hall r (List.mem_cons_self r rest))
    | some l =>
      rw [ih]
      constructor
      · intro hall r' hr'
        rcases List.mem_cons.mp hr' with rfl | hmem
        · rw [hf]; simp
        · have := hall r' hmem
          by_cases hx : r'.1 = r.1
          · rw [hx]; rw [hf]; simp
          · simpa [hx] using this
      · intro hall r' hr'
        have := hall r' (List.mem_cons_of_mem r hr')
        by_cases hx : r'.1 = r.1
        · simp [hx]
        · simpa [hx] using this

theorem ghpAdjFill_err :
    ∀ (rels : List (Nat × Nat × Int)) (f : Nat → Option (List (Nat × Int))),
      (∃ g, ghpAdjFill rels f = .ok g) ∨ ghpAdjFill rels f = .error .keyError := by
  intro rels
  induction rels with
  | nil => intro f; exact Or.inl ⟨f, rfl⟩
  | cons r rest ih =>
    intro f
    rw [ghpAdjFill]
    cases hf : f r.1 with
    | none => exact Or.inr rfl
    | some l => exact ih _

/-- Value of the adjacency list after the fill: the initial entry extended by
the `(destination, weight)` pairs of the relations it sources, in order. -/
theorem ghpAdjFill_val :
    ∀ (rels : List (Nat × Nat × Int)) (f g : Nat → Option (List (Nat × Int))),
      ghpAdjFill rels f = .ok g →
      ∀ x l, f x = some l →
        g x = some (l ++ rels.filterMap
          (fun r => if r.1 = x then some (r.2.1, r.2.2) else none)) := by
  intro rels
  induction rels with
  | nil =>
    intro f g h x l hx
    cases h
    simpa using hx
  | cons r rest ih =>
    intro f g h x l hx
    rw [ghpAdjFill] at h
    cases hf : f r.1 with
    | none => rw [hf] at h; cases h
    | some l1 =>
      rw [hf] at h
      by_cases hxr : x = r.1
      · subst hxr
        rw [hx] at hf
        cases hf
        have hstep := ih _ g h r.1 (l ++ [(r.2.1, r.2.2)]) (by simp)
        rw [hstep, List.filterMap_cons]
        simp
      · have hstep := ih _ g h x l (by simp only [if_neg hxr]; exact hx)
        rw [hstep, List.filterMap_cons]
        have hne : ¬ r.1 = x := fun hh => hxr hh.symm
        simp [hne]

theorem setCell_get_same {m : List (List Int)} {r c : Nat} {v : Int} (w : Int)
    (h : cellGet m r c = some v) : cellGet (setCell m r c w) r c = some w := by
  unfold cellGet at h ⊢
  cases hr : m[r]? with
  | none => rw [hr] at h; cases h
  | some row =>
    rw [hr] at h
    rw [Option.some_bind] at h
    unfold setCell
    rw [hr]
    have hrlt : r < m.length := (List.getElem?_eq_some.mp hr).1
    rw [List.getElem?_set_self (by simpa using hrlt)]
    rw [Option.some_bind]
    rw [List.getElem?_set_self (List.getElem?_eq_some.mp h).1]

theorem setCell_get_other {m : List (List Int)} {r c r' c' : Nat} {w : Int}
    (h : ¬ (r = r' ∧ c = c')) : cellGet (setCell m r c w) r' c' = cellGet m r' c' := by
  unfold setCell cellGet
  cases hr : m[r]? with
  | none => rfl
  | some row =>
    by_cases hrr : r = r'
    · subst hrr
      have hrlt : r < m.length := (List.getElem?_eq_some.mp hr).1
      rw [List.getElem?_set_self (by simpa using hrlt), hr]
      rw [Option.some_bind, Option.some_bind]
      have hcc : c ≠ c' := fun hc => h ⟨rfl, hc⟩
      rw [List.getElem?_set_ne hcc]
    · rw [List.getElem?_set_ne hrr]

theorem setCell_length (m : List (List Int)) (r c : Nat) (w : Int) :
    (setCell m r c w).length = m.length := by
  unfold setCell
  cases m[r]? <;> simp

theorem matInit_cell (n r c : Nat) :
    cellGet (matInit n) r c = if r < n ∧ c < n then some 0 else none := by
  unfold matInit cellGet
  by_cases hr : r < n
  · rw [List.getElem?_eq_getElem (by simpa using hr), List.getElem_replicate,
      Option.some_bind]
    by_cases hc : c < n
    · rw [List.getElem?_eq_getElem (by simpa using hc), List.getElem_replicate]
      simp [hr, hc]
    · rw [List.getElem?_eq_none (by simpa using Nat.le_of_not_lt hc)]
      simp [hr, hc]
  · rw [List.getElem?_eq_none (by simpa using Nat.le_of_not_lt hr)]
    simp [hr]

theorem matFill_ok_iff (encf : Nat → Option Nat) :
    ∀ (rels : List (Nat × Nat × Int)) (m : List (List Int)),
      (∃ m', matFill encf rels m = .ok m') ↔
        ∀ r ∈ rels, encf r.1 ≠ none ∧ encf r.2.1 ≠ none := by
  intro rels
  induction rels with
  | nil => intro m; exact ⟨fun _ => by simp, fun _ => ⟨m, rfl⟩⟩
  | cons r rest ih =>
    intro m
    rw [matFill]
    cases h1 : encf r.1 with
    | none =>
      constructor
      · intro ⟨m', hm⟩; cases hm
      · intro hall
        exact absurd h1 (hall r (List.mem_cons_self r rest)).1
    | some row =>
      cases h2 : encf r.2.1 with
      | none =>
        constructor
        · intro ⟨m', hm⟩; cases hm
        · intro hall
          exact absurd h2 (hall r (List.mem_cons_self r rest)).2
      | some col =>
        rw [ih]
        constructor
        · intro hall r' hr'
          rcases List.mem_cons.mp hr' with rfl | hmem
          · exact ⟨by rw [h1]; simp, by rw [h2]; simp⟩
          · exact hall r' hmem
        · intro hall r' hr'
          exact hall r' (List.mem_cons_of_mem r hr')

theorem matFill_err (encf : Nat → Option Nat) :
    ∀ (rels : List (Nat × Nat × Int)) (m : List (List Int)),
      (∃ m', matFill encf rels m = .ok m') ∨ matFill encf rels m = .error .keyError := by
  intro rels
  induction rels with
  | nil => intro m; exact Or.inl ⟨m, rfl⟩
  | cons r rest ih =>
    intro m
    rw [matFill]
    cases h1 : encf r.1 with
    | none => exact Or.inr rfl
    | some row =>
      cases h2 : encf r.2.1 with
      | none => exact Or.inr rfl
      | some col => exact ih _

/-- C7 counterexample: the vertex list `[0, 0]` is not duplicate-free, yet
construction succeeds — there is no `DuplicateVertex` check anywhere. -/
theorem c7_counterexample :
    ¬ ([0, 0] : List Nat).Nodup ∧
    exceptIsOk (mkGhpGraph [0, 0] [] true) = true := by
  constructor
  · decide
  · decide

/-- C7 (amended): construction never checks vertex uniqueness (duplicate
vertices are accepted; later occurrences shadow earlier ones in the
encoder).  A relation referencing a vertex absent from the vertex list makes
construction fail with Python's `KeyError` (raised from the adjacency-list or
adjacency-matrix build), not a dedicated `DanglingEdge`; when every endpoint
of the (possibly symmetrized) relation set is a listed vertex, construction
succeeds. -/
theorem c7_construction_amended :
    ∀ (v : List Nat) (e : List (Nat × Nat × Int)) (d : Bool),
      ((∀ r ∈ ghpBuildRelation d e, r.1 ∈ v ∧ r.2.1 ∈ v) →
        ∃ g, mkGhpGraph v e d = .ok g) ∧
      ((¬ ∀ r ∈ ghpBuildRelation d e, r.1 ∈ v ∧ r.2.1 ∈ v) →
        mkGhpGraph v e d = .error .keyError) := by
  intro v e d
  constructor
  · intro hall
    obtain ⟨adj, hadj⟩ := (ghpAdjFill_ok_iff (ghpBuildRelation d e) (ghpAdjInit v)).mpr
      (fun r hr => by rw [ghpAdjInit_spec, if_pos (hall r hr).1]; simp)
    obtain ⟨mat, hmat⟩ := (matFill_ok_iff (ghpEncoder v) (ghpBuildRelation d e)
      (matInit v.length)).mpr
      (fun r hr => ⟨by obtain ⟨i, hi⟩ := ghpEncoder_mem (hall r hr).1; rw [hi]; simp,
        by obtain ⟨i, hi⟩ := ghpEncoder_mem (hall r hr).2; rw [hi]; simp⟩)
    exact Exists.intro
      { vertexes := v, directed := d, relations := ghpBuildRelation d e,
        adjList := adj, encoder := ghpEncoder v, decoder := ghpDecoder v,
        adjMat := mat, weight := ghpBuildWeight (ghpBuildRelation d e) }
      (by unfold mkGhpGraph; dsimp only; rw [hadj, hmat])
  · intro hnall
    by_cases hA : ∀ r ∈ ghpBuildRelation d e, r.1 ∈ v
    · have hMbad : ¬ ∃ m', matFill (ghpEncoder v) (ghpBuildRelation d e)
          (matInit v.length) = .ok m' := by
        rw [matFill_ok_iff]
        intro hok
        refine hnall (fun r hr => ⟨hA r hr, ?_⟩)
        have h2 := (hok r hr).2
        by_contra hmem
        exact h2 (ghpEncoder_not_mem hmem)
      have hMerr : matFill (ghpEncoder v) (ghpBuildRelation d e)
          (matInit v.length) = .error .keyError := by
        rcases matFill_err (ghpEncoder v) (ghpBuildRelation d e) (matInit v.length) with
          hok | herr
        · exact absurd hok hMbad
        · exact herr
      obtain ⟨adj, hadj⟩ := (ghpAdjFill_ok_iff (ghpBuildRelation d e) (ghpAdjInit v)).mpr
        (fun r hr => by rw [ghpAdjInit_spec, if_pos (hA r hr)]; simp)
      unfold mkGhpGraph
      dsimp only
      rw [hadj, hMerr]
    · have hAbad : ¬ ∃ g, ghpAdjFill (ghpBuildRelation d e) (ghpAdjInit v) = .ok g := by
        rw [ghpAdjFill_ok_iff]
        intro hok
        refine hA (fun r hr => ?_)
        have := hok r hr
        rw [ghpAdjInit_spec] at this
        by_contra hmem
        simp [hmem] at this
      have hAerr : ghpAdjFill (ghpBuildRelation d e) (ghpAdjInit v) =
          .error .keyError := by
        rcases ghpAdjFill_err (ghpBuildRelation d e) (ghpAdjInit v) with hok | herr
        · exact absurd hok hAbad
        · exact herr
      unfold mkGhpGraph
      dsimp only
      rw [hAerr]

/-- Witness for C7: two distinct vertices and one relation among them
construct successfully. -/
theorem c7_construction_amended_witness :
    ∃ g, mkGhpGraph [0, 1] [(0, 1, 5)] true = .ok g :=
  (c7_construction_amended [0, 1] [(0, 1, 5)] true).1 (by decide)

/-- `labyrinth_graph.Graph._buildAdjList` first pass. -/
def labAdjInit (vs : List Nat) : Nat → Option (List Nat) :=
  vs.foldl (fun f v => fun x => if x = v then some [] else f x) (fun _ => none)

/-- `labyrinth_graph.Graph._buildAdjList` second pass: append the bare
destination vertex (`self.adjList[relation[0]].append(relation[1])`). -/
def labAdjFill : List (Nat × Nat) → (Nat → Option (List Nat)) →
    Except PyErr (Nat → Option (List Nat))
  | [], f => .ok f
  | r :: rest, f =>
    match f r.1 with
    | some l => labAdjFill rest (fun x => if x = r.1 then some (l ++ [r.2]) else f x)
    | none => .error .keyError

/-- `labyrinth_graph.Graph._buildAdjMatrix`: every relation writes the
constant `1` at `(encoder[u], encoder[v])`; reuses the weighted fill with all
weights set to `1`. -/
def labMatFill (encf : Nat → Option Nat) (rels : List (Nat × Nat))
    (m : List (List Int)) : Except PyErr (List (List Int)) :=
  matFill encf (rels.map (fun p => (p.1, p.2, (1 : Int)))) m

/-- Embedding of a constructed `labyrinth_graph.Graph`.  Its `__init__`
stores the supplied relations unchanged: `_buildRelation` is only called by
the dead `_init_` method, so the `directed` flag has no effect on the
views. -/
structure LabGraph : Type where
  vertexes : List Nat
  directed : Bool
  relations : List (Nat × Nat)
  adjList : Nat → Option (List Nat)
  encoder : Nat → Option Nat
  decoder : Nat → Option Nat
  adjMat : List (List Int)

def mkLabGraph (v : List Nat) (rels : List (Nat × Nat)) (directed : Bool) :
    Except PyErr LabGraph :=
  match labAdjFill rels (labAdjInit v) with
  | .error err => .error err
  | .ok adj =>
    match labMatFill (ghpEncoder v) rels (matInit v.length) with
    | .error err => .error err
    | .ok mat =>
      .ok { vertexes := v, directed := directed, relations := rels, adjList := adj,
            encoder := ghpEncoder v, decoder := ghpDecoder v, adjMat := mat }

/-- Adjacency-list lookup through a construction result (`none` on failure). -/
def labAdjOf (r : Except PyErr LabGraph) (v : Nat) : Option (List Nat) :=
  match r with
  | .ok g => g.adjList v
  | .error _ => none

def labMatOf (r : Except PyErr LabGraph) : List (List Int) :=
  match r with
  | .ok g => g.adjMat
  | .error _ => []

/-- The weight written last into cell `(r, c)` by the matrix fill (`none`
when no relation addresses that cell). -/
def lastWeight (encf : Nat → Option Nat) (r c : Nat) :
    List (Nat × Nat × Int) → Option Int
  | [] => none
  | rel :: rest =>
    match lastWeight encf r c rest with
    | some w => some w
    | none =>
      if encf rel.1 = some r ∧ encf rel.2.1 = some c then some rel.2.2 else none

theorem mem_of_getElem?_eq {α : Type _} {l : List α} {i : Nat} {a : α}
    (h : l[i]? = some a) : a ∈ l := by
  obtain ⟨hlt, hget⟩ := List.getElem?_eq_some.mp h
  rw [← hget]
  exact List.getElem_mem hlt

theorem lastWeight_mem {encf : Nat → Option Nat} {r c : Nat} :
    ∀ {rels : List (Nat × Nat × Int)} {w : Int}, lastWeight encf r c rels = some w →
      ∃ rel ∈ rels, encf rel.1 = some r ∧ encf rel.2.1 = some c ∧ rel.2.2 = w := by
  intro rels
  induction rels with
  | nil => intro w h; cases h
  | cons rel rest ih =>
    intro w h
    rw [lastWeight] at h
    cases hrest : lastWeight encf r c rest with
    | some w' =>
      rw [hrest] at h
      cases h
      obtain ⟨rel', hmem, h1, h2, h3⟩ := ih hrest
      exact ⟨rel', List.mem_cons_of_mem _ hmem, h1, h2, h3⟩
    | none =>
      rw [hrest] at h
      by_cases hcond : encf rel.1 = some r ∧ encf rel.2.1 = some c
      · rw [if_pos hcond] at h
        cases h
        exact ⟨rel, List.mem_cons_self _ _, hcond.1, hcond.2, rfl⟩
      · rw [if_neg hcond] at h
        cases h

theorem lastWeight_isSome {encf : Nat → Option Nat} {r c : Nat} :
    ∀ {rels : List (Nat × Nat × Int)} {rel : Nat × Nat × Int}, rel ∈ rels →
      encf rel.1 = some r → encf rel.2.1 = some c →
      ∃ w, lastWeight encf r c rels = some w := by
  intro rels
  induction rels with
  | nil => intro rel h; cases h
  | cons rel0 rest ih =>
    intro rel hmem h1 h2
    rw [lastWeight]
    cases hrest : lastWeight encf r c rest with
    | some w => exact ⟨w, rfl⟩
    | none =>
      rcases List.mem_cons.mp hmem with rfl | hmem'
      · rw [if_pos ⟨h1, h2⟩]
        exact ⟨rel.2.2, rfl⟩
      · obtain ⟨w, hw⟩ := ih hmem' h1 h2
        rw [hw] at hrest
        cases hrest

/-- Squareness of the matrix: `n` rows of length `n`. -/
def matSquare (n : Nat) (m : List (List Int)) : Prop :=
  m.length = n ∧ ∀ row ∈ m, row.length = n

theorem matSquare_init (n : Nat) : matSquare n (matInit n) := by
  constructor
  · simp [matInit]
  · intro row hrow
    rw [List.eq_of_mem_replicate hrow]
    simp

theorem matSquare_setCell {n : Nat} {m : List (List Int)} (h : matSquare n m)
    (r c : Nat) (w : Int) : matSquare n (setCell m r c w) := by
  unfold setCell
  cases hr : m[r]? with
  | none => exact h
  | some row =>
    constructor
    · rw [List.length_set]; exact h.1
    · intro row' hrow'
      rcases List.mem_or_eq_of_mem_set hrow' with hmem | rfl
      · exact h.2 row' hmem
      · rw [List.length_set]
        exact h.2 row (mem_of_getElem?_eq hr)

theorem matSquare_cellGet {n : Nat} {m : List (List Int)} (h : matSquare n m)
    {r c : Nat} (hr : r < n) (hc : c < n) : ∃ v, cellGet m r c = some v := by
  unfold cellGet
  have hrm : r < m.length := by rw [h.1]; exact hr
  obtain ⟨row, hrow⟩ : ∃ row, m[r]? = some row := by
    rw [List.getElem?_eq_getElem hrm]; exact ⟨_, rfl⟩
  rw [hrow, Option.some_bind]
  have hlen : row.length = n := h.2 row (mem_of_getElem?_eq hrow)
  rw [List.getElem?_eq_getElem (by rw [hlen]; exact hc)]
  exact ⟨_, rfl⟩

/-- Matrix cell after a successful fill: the last weight written there, or
the initial cell value when no relation addresses it. -/
theorem matFill_cell {encf : Nat → Option Nat} {n : Nat}
    (hbound : ∀ x i, encf x = some i → i < n) :
    ∀ (rels : List (Nat × Nat × Int)) (m m' : List (List Int)), matSquare n m →
      matFill encf rels m = .ok m' →
      ∀ r c, cellGet m' r c =
        match lastWeight encf r c rels with
        | some w => some w
        | none => cellGet m r c := by
  intro rels
  induction rels with
  | nil =>
    intro m m' _ h r c
    cases h
    rfl
  | cons rel rest ih =>
    intro m m' hsq h r c
    rw [matFill] at h
    cases h1 : encf rel.1 with
    | none => rw [h1] at h; cases h
    | some row =>
      cases h2 : encf rel.2.1 with
      | none => rw [h1, h2] at h; cases h
      | some col =>
        rw [h1, h2] at h
        have hrec := ih (setCell m row col rel.2.2) m'
          (matSquare_setCell hsq row col rel.2.2) h r c
        rw [hrec, lastWeight]
        cases hrest : lastWeight encf r c rest with
        | some w => rfl
        | none =>
          by_cases hhit : encf rel.1 = some r ∧ encf rel.2.1 = some c
          · rw [if_pos hhit]
            have hrr : row = r := by rw [h1] at hhit; exact Option.some.inj hhit.1
            have hcc : col = c := by rw [h2] at hhit; exact Option.some.inj hhit.2
            subst hrr; subst hcc
            obtain ⟨v0, hv0⟩ := matSquare_cellGet hsq (hbound _ _ h1) (hbound _ _ h2)
            exact setCell_get_same rel.2.2 hv0
          · rw [if_neg hhit]
            refine setCell_get_other ?_
            intro ⟨hr', hc'⟩
            exact hhit ⟨by rw [h1, hr'], by rw [h2, hc']⟩

theorem mkGhpGraph_ok {v : List Nat} {e : List (Nat × Nat × Int)} {d : Bool}
    {g : GhpGraph} (h : mkGhpGraph v e d = .ok g) :
    g.vertexes = v ∧ g.relations = ghpBuildRelation d e ∧
    g.encoder = ghpEncoder v ∧ g.decoder = ghpDecoder v ∧
    ghpAdjFill (ghpBuildRelation d e) (ghpAdjInit v) = .ok g.adjList ∧
    matFill (ghpEncoder v) (ghpBuildRelation d e) (matInit v.length) = .ok g.adjMat := by
  unfold mkGhpGraph at h
  dsimp only at h
  cases hadj : ghpAdjFill (ghpBuildRelation d e) (ghpAdjInit v) with
  | error err => rw [hadj] at h; cases h
  | ok adj =>
    rw [hadj] at h
    cases hmat : matFill (ghpEncoder v) (ghpBuildRelation d e) (matInit v.length) with
    | error err => rw [hmat] at h; cases h
    | ok mat =>
      rw [hmat] at h
      cases h
      exact ⟨rfl, rfl, rfl, rfl, rfl, rfl⟩

theorem mkLabGraph_ok {v : List Nat} {e : List (Nat × Nat)} {d : Bool}
    {g : LabGraph} (h : mkLabGraph v e d = .ok g) :
    g.vertexes = v ∧ g.relations = e ∧
    g.encoder = ghpEncoder v ∧ g.decoder = ghpDecoder v ∧
    labAdjFill e (labAdjInit v) = .ok g.adjList ∧
    labMatFill (ghpEncoder v) e (matInit v.length) = .ok g.adjMat := by
  unfold mkLabGraph at h
  cases hadj : labAdjFill e (labAdjInit v) with
  | error err => rw [hadj] at h; cases h
  | ok adj =>
    rw [hadj] at h
    cases hmat : labMatFill (ghpEncoder v) e (matInit v.length) with
    | error err => rw [hmat] at h; cases h
    | ok mat =>
      rw [hmat] at h
      cases h
      exact ⟨rfl, rfl, rfl, rfl, rfl, rfl⟩

theorem labAdjInit_spec (vs : List Nat) (x : Nat) :
    labAdjInit vs x = if x ∈ vs then some [] else none := by
  unfold labAdjInit
  suffices h : ∀ (f0 : Nat → Option (List Nat)),
      (vs.foldl (fun f v => fun x => if x = v then some [] else f x) f0) x =
        if x ∈ vs then some [] else f0 x by
    simpa using h (fun _ => none)
  induction vs with
  | nil => intro f0; simp
  | cons v rest ih =>
    intro f0
    rw [List.foldl_cons, ih]
    by_cases hx : x ∈ rest
    · simp [hx]
    · by_cases hxv : x = v
      · simp [hx, hxv]
      · simp [hx, hxv, List.mem_cons]

theorem labAdjFill_val :
    ∀ (rels : List (Nat × Nat)) (f g : Nat → Option (List Nat)),
      labAdjFill rels f = .ok g →
      ∀ x l, f x = some l →
        g x = some (l ++ rels.filterMap
          (fun r => if r.1 = x then some r.2 else none)) := by
  intro rels
  induction rels with
  | nil =>
    intro f g h x l hx
    cases h
    simpa using hx
  | cons r rest ih =>
    intro f g h x l hx
    rw [labAdjFill] at h
    cases hf : f r.1 with
    | none => rw [hf] at h; cases h
    | some l1 =>
      rw [hf] at h
      by_cases hxr : x = r.1
      · subst hxr
        rw [hx] at hf
        cases hf
        have hstep := ih _ g h r.1 (l ++ [r.2]) (by simp)
        rw [hstep, List.filterMap_cons]
        simp
      · have hstep := ih _ g h x l (by simp only [if_neg hxr]; exact hx)
        rw [hstep, List.filterMap_cons]
        have hne : ¬ r.1 = x := fun hh => hxr hh.symm
        simp [hne]

theorem labAdjFill_ok_iff :
    ∀ (rels : List (Nat × Nat)) (f : Nat → Option (List Nat)),
      (∃ g, labAdjFill rels f = .ok g) ↔ ∀ r ∈ rels, f r.1 ≠ none := by
  intro rels
  induction rels with
  | nil =>
    intro f
    exact ⟨fun _ => by simp, fun _ => ⟨f, rfl⟩⟩
  | cons r rest ih =>
    intro f
    rw [labAdjFill]
    cases hf : f r.1 with
    | none =>
      constructor
      · intro ⟨g, hg⟩; cases hg
      · intro hall
        exact absurd hf (hall r (List.mem_cons_self r rest))
    | some l =>
      rw [ih]
      constructor
      · intro hall r' hr'
        rcases List.mem_cons.mp hr' with rfl | hmem
        · rw [hf]; simp
        · have := hall r' hmem
          by_cases hx : r'.1 = r.1
          · rw [hx, hf]; simp
          · simpa [hx] using this
      · intro hall r' hr'
        have := hall r' (List.mem_cons_of_mem r hr')
        by_cases hx : r'.1 = r.1
        · simp [hx]
        · simpa [hx] using this

/-- Unpack a labyrinth construction known to succeed (dummy otherwise). -/
def labGraphOfOk (r : Except PyErr LabGraph) : LabGraph :=
  match r with
  | .ok g => g
  | .error _ =>
    { vertexes := [], directed := true, relations := [], adjList := fun _ => none,
      encoder := fun _ => none, decoder := fun _ => none, adjMat := [] }

/-- Row scan of `labyrinth_graph.Graph._getNeighborsMatAdj`: walk the row
cells with their column index, keep the columns whose cell the `keep` test
accepts (`cell == 1` in the labyrinth source; the weighted `graph_heap_pq`
variant stores weights in the cells and the spec reads any nonzero cell as a
neighbor mark), and decode each kept column; a decoder miss is Python's
`KeyError`. -/
def matRowScanE (keep : Int → Bool) (dec : Nat → Option Nat) :
    List Int → Nat → Except PyErr (List Nat)
  | [], _ => .ok []
  | cell :: rest, i =>
    if keep cell then
      match dec i with
      | some v =>
        match matRowScanE keep dec rest (i + 1) with
        | .ok l => .ok (v :: l)
        | .error e => .error e
      | none => .error .keyError
    else matRowScanE keep dec rest (i + 1)

/-- Neighbors of matrix row `idx` of a `graph_heap_pq` graph, per the spec's
matrix view: a nonzero cell marks a neighbor (the source has no matrix
scanner of its own; cells hold edge weights). -/
def ghpMatNeighbors (g : GhpGraph) (idx : Nat) : Except PyErr (List Nat) :=
  matRowScanE (fun cell => !(cell == 0)) g.decoder ((g.adjMat[idx]?).getD []) 0

/-- `labyrinth_graph.Graph._getNeighborsMatAdj(idx)`: scan matrix row `idx`
collecting `decoder[i]` for every cell equal to `1` (an out-of-range row,
impossible for encoder-produced indices, reads as empty). -/
def labMatNeighbors (g : LabGraph) (idx : Nat) : Except PyErr (List Nat) :=
  matRowScanE (fun cell => cell == 1) g.decoder ((g.adjMat[idx]?).getD []) 0

theorem matRowScanE_ok (keep : Int → Bool) (dec : Nat → Option Nat) :
    ∀ (row : List Int) (i0 : Nat),
      (∀ c, c < row.length → dec (i0 + c) ≠ none) →
      ∃ l, matRowScanE keep dec row i0 = .ok l := by
  intro row
  induction row with
  | nil => intro i0 _; exact ⟨[], rfl⟩
  | cons cell rest ih =>
    intro i0 hdec
    have hshift : ∀ c, c < rest.length → dec (i0 + 1 + c) ≠ none := by
      intro c hc
      have := hdec (c + 1) (by simpa using Nat.succ_lt_succ hc)
      rwa [show i0 + (c + 1) = i0 + 1 + c by omega] at this
    rw [matRowScanE]
    by_cases hk : keep cell = true
    · rw [if_pos hk]
      have h0 : dec (i0 + 0) ≠ none := hdec 0 (by simp)
      rw [Nat.add_zero] at h0
      cases hd : dec i0 with
      | none => exact absurd hd h0
      | some v =>
        obtain ⟨l, hl⟩ := ih (i0 + 1) hshift
        exact ⟨v :: l, by rw [hl]⟩
    · rw [if_neg hk]
      exact ih (i0 + 1) hshift

theorem matRowScanE_mem (keep : Int → Bool) (dec : Nat → Option Nat) :
    ∀ (row : List Int) (i0 : Nat) (l : List Nat),
      matRowScanE keep dec row i0 = .ok l →
      ∀ x, (x ∈ l ↔
        ∃ c w, row[c]? = some w ∧ keep w = true ∧ dec (i0 + c) = some x) := by
  intro row
  induction row with
  | nil =>
    intro i0 l h x
    cases h
    simp
  | cons cell rest ih =>
    intro i0 l h x
    rw [matRowScanE] at h
    by_cases hk : keep cell = true
    · rw [if_pos hk] at h
      cases hd : dec i0 with
      | none => rw [hd] at h; cases h
      | some v =>
        rw [hd] at h
        cases hrec : matRowScanE keep dec rest (i0 + 1) with
        | error e => rw [hrec] at h; cases h
        | ok l' =>
          rw [hrec] at h
          cases h
          constructor
          · intro hx
            rcases List.mem_cons.mp hx with rfl | hx'
            · exact ⟨0, cell, by simp, hk, by rw [Nat.add_zero]; exact hd⟩
            · obtain ⟨c, w, h1, h2, h3⟩ := (ih _ _ hrec x).mp hx'
              exact ⟨c + 1, w, by simpa using h1, h2,
                by rwa [show i0 + (c + 1) = i0 + 1 + c by omega]⟩
          · rintro ⟨c, w, h1, h2, h3⟩
            cases c with
            | zero =>
              rw [List.getElem?_cons_zero] at h1
              rw [Nat.add_zero, hd] at h3
              have hvx : v = x := Option.some.inj h3
              rw [← hvx]
              exact List.mem_cons_self _ _
            | succ c' =>
              rw [List.getElem?_cons_succ] at h1
              refine List.mem_cons_of_mem _ ((ih _ _ hrec x).mpr ⟨c', w, h1, h2, ?_⟩)
              rwa [show i0 + 1 + c' = i0 + (c' + 1) by omega]
    · rw [if_neg hk] at h
      constructor
      · intro hx
        obtain ⟨c, w, h1, h2, h3⟩ := (ih _ _ h x).mp hx
        exact ⟨c + 1, w, by simpa using h1, h2,
          by rwa [show i0 + (c + 1) = i0 + 1 + c by omega]⟩
      · rintro ⟨c, w, h1, h2, h3⟩
        cases c with
        | zero =>
          rw [List.getElem?_cons_zero] at h1
          have hwc : cell = w := Option.some.inj h1
          rw [← hwc] at h2
          exact absurd h2 hk
        | succ c' =>
          rw [List.getElem?_cons_succ] at h1
          refine (ih _ _ h x).mpr ⟨c', w, h1, h2, ?_⟩
          rwa [show i0 + 1 + c' = i0 + (c' + 1) by omega]

theorem matFill_square {encf : Nat → Option Nat} {n : Nat} :
    ∀ (rels : List (Nat × Nat × Int)) (m m' : List (List Int)),
      matSquare n m → matFill encf rels m = .ok m' → matSquare n m' := by
  intro rels
  induction rels with
  | nil => intro m m' hsq h; cases h; exact hsq
  | cons r rest ih =>
    intro m m' hsq h
    rw [matFill] at h
    cases h1 : encf r.1 with
    | none => rw [h1] at h; cases h
    | some row =>
      cases h2 : encf r.2.1 with
      | none => rw [h1, h2] at h; cases h
      | some col =>
        rw [h1, h2] at h
        exact ih _ _ (matSquare_setCell hsq row col r.2.2) h

theorem cellGet_row {m : List (List Int)} {r : Nat} {row : List Int}
    (h : m[r]? = some row) (c : Nat) : cellGet m r c = row[c]? := by
  unfold cellGet
  rw [h]
  rfl

/-- C5 counterexample: in the weighted `graph_heap_pq` variant an edge of
weight `0` leaves its matrix cell indistinguishable from "no edge", so the
adjacency list reports neighbor `1` of vertex `0` while the matrix row scan
reports no neighbor at all. -/
theorem c5_counterexample :
    exceptIsOk (mkGhpGraph [0, 1] [(0, 1, 0)] true) = true ∧
    (ghpGraphOfOk (mkGhpGraph [0, 1] [(0, 1, 0)] true)).adjList 0 = some [(1, 0)] ∧
    (ghpGraphOfOk (mkGhpGraph [0, 1] [(0, 1, 0)] true)).encoder 0 = some 0 ∧
    ghpMatNeighbors (ghpGraphOfOk (mkGhpGraph [0, 1] [(0, 1, 0)] true)) 0 = .ok [] :=
  ⟨by decide, by decide, by decide, by decide⟩

/-- C5 (amended): for every successfully constructed graph, the neighbor set
of a vertex read from the adjacency list agrees with the set obtained by
scanning the vertex's matrix row and decoding the marked columns — in the
weighted `graph_heap_pq` variant (nonzero cell marks a neighbor) provided no
stored relation has weight `0`, and in the unweighted labyrinth variant
(cell `1` marks a neighbor) unconditionally. -/
theorem c5_matrix_list_agreement_amended :
    (∀ (v : List Nat) (e : List (Nat × Nat × Int)) (d : Bool),
      exceptIsOk (mkGhpGraph v e d) = true →
      (∀ rel ∈ (ghpGraphOfOk (mkGhpGraph v e d)).relations, rel.2.2 ≠ 0) →
      ∀ u r, (ghpGraphOfOk (mkGhpGraph v e d)).encoder u = some r →
        ∃ nbrs, ghpMatNeighbors (ghpGraphOfOk (mkGhpGraph v e d)) r = .ok nbrs ∧
          ∀ x, ((∃ w, (x, w) ∈ ((ghpGraphOfOk (mkGhpGraph v e d)).adjList u).getD [])
            ↔ x ∈ nbrs)) ∧
    (∀ (v : List Nat) (e : List (Nat × Nat)) (d : Bool),
      exceptIsOk (mkLabGraph v e d) = true →
      ∀ u r, (labGraphOfOk (mkLabGraph v e d)).encoder u = some r →
        ∃ nbrs, labMatNeighbors (labGraphOfOk (mkLabGraph v e d)) r = .ok nbrs ∧
          ∀ x, (x ∈ ((labGraphOfOk (mkLabGraph v e d)).adjList u).getD [] ↔
            x ∈ nbrs)) := by
  constructor
  · intro v e d hok
    cases hg : mkGhpGraph v e d with
    | error err => rw [hg] at hok; exact absurd hok (by simp [exceptIsOk])
    | ok g =>
      simp only [ghpGraphOfOk]
      intro hw u r henc
      obtain ⟨hvx, hrels, hencf, hdecf, hadj, hmat⟩ := mkGhpGraph_ok hg
      rw [hencf] at henc
      have humem : u ∈ v := ghpEncoder_mem_of_some henc
      have hlist := ghpAdjFill_val _ _ _ hadj u []
        (by rw [ghpAdjInit_spec, if_pos humem])
      have hsq : matSquare v.length g.adjMat :=
        matFill_square _ _ _ (matSquare_init v.length) hmat
      have hrlt : r < v.length := ghpEncoder_lt_of_some henc
      obtain ⟨row, hrow⟩ : ∃ row, g.adjMat[r]? = some row := by
        rw [List.getElem?_eq_getElem (by rw [hsq.1]; exact hrlt)]
        exact ⟨_, rfl⟩
      have hrowlen : row.length = v.length := hsq.2 row (mem_of_getElem?_eq hrow)
      obtain ⟨nbrs, hnbrs⟩ := matRowScanE_ok (fun cell => !(cell == 0)) g.decoder row 0
        (by
          intro c hc
          rw [Nat.zero_add, hdecf, ghpDecoder_spec,
            List.getElem?_eq_getElem (by rw [← hrowlen]; exact hc)]
          simp)
      have hcellrow : ∀ c, cellGet g.adjMat r c = row[c]? := cellGet_row hrow
      have hcell := matFill_cell (fun x i h => ghpEncoder_lt_of_some h)
        (ghpBuildRelation d e) (matInit v.length) g.adjMat
        (matSquare_init v.length) hmat
      refine ⟨nbrs, by unfold ghpMatNeighbors; rw [hrow]; simpa using hnbrs, ?_⟩
      intro x
      have hmemScan := matRowScanE_mem (fun cell => !(cell == 0)) g.decoder row 0
        nbrs hnbrs x
      constructor
      · rintro ⟨w, hxw⟩
        rw [hlist] at hxw
        simp only [Option.getD_some, List.nil_append] at hxw
        rw [List.mem_filterMap] at hxw
        obtain ⟨rel, hrelmem, hrel⟩ := hxw
        by_cases hru : rel.1 = u
        · rw [if_pos hru] at hrel
          have h21 : rel.2.1 = x := congrArg Prod.fst (Option.some.inj hrel)
          have hx_some : ghpEncoder v rel.2.1 ≠ none :=
            ((matFill_ok_iff (ghpEncoder v) (ghpBuildRelation d e)
              (matInit v.length)).mp ⟨_, hmat⟩ rel hrelmem).2
          cases hcx : ghpEncoder v rel.2.1 with
          | none => exact absurd hcx hx_some
          | some c =>
            have hru' : ghpEncoder v rel.1 = some r := by rw [hru]; exact henc
            obtain ⟨w', hlw⟩ := lastWeight_isSome hrelmem hru' hcx
            have hcellval := hcell r c
            rw [hlw] at hcellval
            dsimp only at hcellval
            obtain ⟨rel', hrel'mem, _, _, hrel'w⟩ := lastWeight_mem hlw
            have hw' : w' ≠ 0 := by
              rw [← hrel'w]
              exact hw rel' (by rw [hrels]; exact hrel'mem)
            have hdecx : g.decoder c = some x := by
              rw [hdecf, ghpDecoder_spec, ← h21]
              exact ghpEncoder_some hcx
            rw [hmemScan]
            exact ⟨c, w', by rw [← hcellrow]; exact hcellval, by simpa using hw',
              by rw [Nat.zero_add]; exact hdecx⟩
        · rw [if_neg hru] at hrel
          cases hrel
      · intro hx
        obtain ⟨c, w, hrowc, hkeep, hdecx⟩ := hmemScan.mp hx
        rw [Nat.zero_add] at hdecx
        have hwne : w ≠ 0 := by simpa using hkeep
        have hcr : c < v.length := by
          rw [← hrowlen]
          exact (List.getElem?_eq_some.mp hrowc).1
        have hcellw : cellGet g.adjMat r c = some w := by
          rw [hcellrow c]
          exact hrowc
        have hcellval := hcell r c
        cases hlw : lastWeight (ghpEncoder v) r c (ghpBuildRelation d e) with
        | none =>
          rw [hlw] at hcellval
          dsimp only at hcellval
          rw [matInit_cell, if_pos ⟨hrlt, hcr⟩] at hcellval
          rw [hcellw] at hcellval
          exact absurd (Option.some.inj hcellval) hwne
        | some w' =>
          rw [hlw] at hcellval
          dsimp only at hcellval
          obtain ⟨rel, hrelmem, hr1, hr2, hrw⟩ := lastWeight_mem hlw
          have hrel1 : rel.1 = u := ghpEncoder_inj hr1 henc
          have hvc : v[c]? = some rel.2.1 := ghpEncoder_some hr2
          have hdx : v[c]? = some x := by
            rw [hdecf, ghpDecoder_spec] at hdecx
            exact hdecx
          have hrel2 : rel.2.1 = x := by
            rw [hvc] at hdx
            exact Option.some.inj hdx
          refine ⟨rel.2.2, ?_⟩
          rw [hlist]
          simp only [Option.getD_some, List.nil_append]
          rw [List.mem_filterMap]
          exact ⟨rel, hrelmem, by rw [if_pos hrel1, hrel2]⟩
  · intro v e d hok
    cases hg : mkLabGraph v e d with
    | error err => rw [hg] at hok; exact absurd hok (by simp [exceptIsOk])
    | ok g =>
      simp only [labGraphOfOk]
      intro u r henc
      obtain ⟨hvx, hrels, hencf, hdecf, hadj, hmat⟩ := mkLabGraph_ok hg
      unfold labMatFill at hmat
      rw [hencf] at henc
      have humem : u ∈ v := ghpEncoder_mem_of_some henc
      have hlist := labAdjFill_val _ _ _ hadj u []
        (by rw [labAdjInit_spec, if_pos humem])
      have hsq : matSquare v.length g.adjMat :=
        matFill_square _ _ _ (matSquare_init v.length) hmat
      have hrlt : r < v.length := ghpEncoder_lt_of_some henc
      obtain ⟨row, hrow⟩ : ∃ row, g.adjMat[r]? = some row := by
        rw [List.getElem?_eq_getElem (by rw [hsq.1]; exact hrlt)]
        exact ⟨_, rfl⟩
      have hrowlen : row.length = v.length := hsq.2 row (mem_of_getElem?_eq hrow)
      obtain ⟨nbrs, hnbrs⟩ := matRowScanE_ok (fun cell => cell == 1) g.decoder row 0
        (by
          intro c hc
          rw [Nat.zero_add, hdecf, ghpDecoder_spec,
            List.getElem?_eq_getElem (by rw [← hrowlen]; exact hc)]
          simp)
      have hcellrow : ∀ c, cellGet g.adjMat r c = row[c]? := cellGet_row hrow
      have hcell := matFill_cell (fun x i h => ghpEncoder_lt_of_some h)
        (e.map (fun p => (p.1, p.2, (1 : Int)))) (matInit v.length) g.adjMat
        (matSquare_init v.length) hmat
      refine ⟨nbrs, by unfold labMatNeighbors; rw [hrow]; simpa using hnbrs, ?_⟩
      intro x
      have hmemScan := matRowScanE_mem (fun cell => cell == 1) g.decoder row 0
        nbrs hnbrs x
      constructor
      · intro hxl
        rw [hlist] at hxl
        simp only [Option.getD_some, List.nil_append] at hxl
        rw [List.mem_filterMap] at hxl
        obtain ⟨p, hpmem, hp⟩ := hxl
        by_cases hpu : p.1 = u
        · rw [if_pos hpu] at hp
          have hpx : p.2 = x := Option.some.inj hp
          have hmmem : (p.1, p.2, (1 : Int)) ∈ e.map (fun p => (p.1, p.2, (1 : Int))) :=
            List.mem_map_of_mem _ hpmem
          have hx_some : ghpEncoder v p.2 ≠ none :=
            ((matFill_ok_iff (ghpEncoder v) (e.map (fun p => (p.1, p.2, (1 : Int))))
              (matInit v.length)).mp ⟨_, hmat⟩ _ hmmem).2
          cases hcx : ghpEncoder v p.2 with
          | none => exact absurd hcx hx_some
          | some c =>
            have hru' : ghpEncoder v p.1 = some r := by rw [hpu]; exact henc
            obtain ⟨w', hlw⟩ := lastWeight_isSome hmmem hru' hcx
            have hcellval := hcell r c
            rw [hlw] at hcellval
            dsimp only at hcellval
            obtain ⟨rel', hrel'mem, _, _, hrel'w⟩ := lastWeight_mem hlw
            have hw1 : w' = 1 := by
              rw [List.mem_map] at hrel'mem
              obtain ⟨q, _, hq⟩ := hrel'mem
              rw [← hrel'w, ← hq]
            have hdecx : g.decoder c = some x := by
              rw [hdecf, ghpDecoder_spec, ← hpx]
              exact ghpEncoder_some hcx
            rw [hmemScan]
            exact ⟨c, w', by rw [← hcellrow]; exact hcellval, by rw [hw1]; rfl,
              by rw [Nat.zero_add]; exact hdecx⟩
        · rw [if_neg hpu] at hp
          cases hp
      · intro hx
        obtain ⟨c, w, hrowc, hkeep, hdecx⟩ := hmemScan.mp hx
        rw [Nat.zero_add] at hdecx
        have hw1 : w = 1 := by simpa using hkeep
        have hcr : c < v.length := by
          rw [← hrowlen]
          exact (List.getElem?_eq_some.mp hrowc).1
        have hcellw : cellGet g.adjMat r c = some w := by
          rw [hcellrow c]
          exact hrowc
        have hcellval := hcell r c
        cases hlw : lastWeight (ghpEncoder v) r c
            (e.map (fun p => (p.1, p.2, (1 : Int)))) with
        | none =>
          rw [hlw] at hcellval
          dsimp only at hcellval
          rw [matInit_cell, if_pos ⟨hrlt, hcr⟩] at hcellval
          rw [hcellw] at hcellval
          have : w = 0 := Option.some.inj hcellval
          rw [hw1] at this
          cases this
        | some w' =>
          rw [hlw] at hcellval
          dsimp only at hcellval
          obtain ⟨rel, hrelmem, hr1, hr2, hrw⟩ := lastWeight_mem hlw
          rw [List.mem_map] at hrelmem
          obtain ⟨q, hqmem, hq⟩ := hrelmem
          have hq1 : q.1 = rel.1 := by rw [← hq]
          have hq2 : q.2 = rel.2.1 := by rw [← hq]
          have hrel1 : rel.1 = u := ghpEncoder_inj hr1 henc
          have hvc : v[c]? = some rel.2.1 := ghpEncoder_some hr2
          have hdx : v[c]? = some x := by
            rw [hdecf, ghpDecoder_spec] at hdecx
            exact hdecx
          have hrel2 : rel.2.1 = x := by
            rw [hvc] at hdx
            exact Option.some.inj hdx
          rw [hlist]
          simp only [Option.getD_some, List.nil_append]
          rw [List.mem_filterMap]
          refine ⟨q, hqmem, ?_⟩
          rw [if_pos (by rw [hq1]; exact hrel1), hq2, hrel2]

/-- Witness for C5 (amended): a one-edge weighted graph and a one-edge
labyrinth graph where list and matrix neighbor sets agree. -/
theorem c5_matrix_list_agreement_amended_witness :
    (∃ nbrs, ghpMatNeighbors (ghpGraphOfOk (mkGhpGraph [0, 1] [(0, 1, 5)] true)) 0 =
        .ok nbrs ∧
      ∀ x, ((∃ w, (x, w) ∈
        ((ghpGraphOfOk (mkGhpGraph [0, 1] [(0, 1, 5)] true)).adjList 0).getD [])
        ↔ x ∈ nbrs)) ∧
    (∃ nbrs, labMatNeighbors (labGraphOfOk (mkLabGraph [0, 1] [(0, 1)] true)) 0 =
        .ok nbrs ∧
      ∀ x, (x ∈ ((labGraphOfOk (mkLabGraph [0, 1] [(0, 1)] true)).adjList 0).getD []
        ↔ x ∈ nbrs)) :=
  ⟨c5_matrix_list_agreement_amended.1 [0, 1] [(0, 1, 5)] true (by decide) (by decide)
      0 0 (by decide),
    c5_matrix_list_agreement_amended.2 [0, 1] [(0, 1)] true (by decide) 0 0 (by decide)⟩

theorem relStep_mem_preserve {acc : List (Nat × Nat × Int)}
    {el x : Nat × Nat × Int} (hx : x ∈ acc) : x ∈ relStep acc el := by
  unfold relStep
  dsimp only
  by_cases h1 : el ∈ acc
  · rw [if_pos h1]
    by_cases h2 : (el.2.1, el.1, el.2.2) ∈ acc
    · rw [if_pos h2]; exact hx
    · rw [if_neg h2]; exact List.mem_append_left _ hx
  · rw [if_neg h1]
    by_cases h2 : (el.2.1, el.1, el.2.2) ∈ acc ++ [el]
    · rw [if_pos h2]; exact List.mem_append_left _ hx
    · rw [if_neg h2]
      exact List.mem_append_left _ (List.mem_append_left _ hx)

theorem relStep_mem_self (acc : List (Nat × Nat × Int)) (el : Nat × Nat × Int) :
    el ∈ relStep acc el := by
  unfold relStep
  dsimp only
  have h1 : el ∈ if el ∈ acc then acc else acc ++ [el] := by
    by_cases h : el ∈ acc
    · rw [if_pos h]; exact h
    · rw [if_neg h]; exact List.mem_append_right _ (List.mem_singleton.mpr rfl)
  by_cases h2 : (el.2.1, el.1, el.2.2) ∈ if el ∈ acc then acc else acc ++ [el]
  · rw [if_pos h2]; exact h1
  · rw [if_neg h2]; exact List.mem_append_left _ h1

theorem relStep_mem_rev (acc : List (Nat × Nat × Int)) (el : Nat × Nat × Int) :
    (el.2.1, el.1, el.2.2) ∈ relStep acc el := by
  unfold relStep
  dsimp only
  by_cases h2 : (el.2.1, el.1, el.2.2) ∈ if el ∈ acc then acc else acc ++ [el]
  · rw [if_pos h2]; exact h2
  · rw [if_neg h2]
    exact List.mem_append_right _ (List.mem_singleton.mpr rfl)

theorem ghpBuildRelation_foldl_mono :
    ∀ (e acc : List (Nat × Nat × Int)) (x : Nat × Nat × Int), x ∈ acc →
      x ∈ e.foldl relStep acc := by
  intro e
  induction e with
  | nil => intro acc x hx; exact hx
  | cons el rest ih =>
    intro acc x hx
    rw [List.foldl_cons]
    exact ih _ _ (relStep_mem_preserve hx)

/-- Building the relation set of an undirected `graph_heap_pq` graph puts
every supplied triple and its reverse (same weight) into the result. -/
theorem ghpBuildRelation_mem_undirected :
    ∀ (e : List (Nat × Nat × Int)) (el : Nat × Nat × Int), el ∈ e →
      el ∈ ghpBuildRelation false e ∧
      (el.2.1, el.1, el.2.2) ∈ ghpBuildRelation false e := by
  have key : ∀ (e acc : List (Nat × Nat × Int)) (el : Nat × Nat × Int), el ∈ e →
      el ∈ e.foldl relStep acc ∧ (el.2.1, el.1, el.2.2) ∈ e.foldl relStep acc := by
    intro e
    induction e with
    | nil => intro acc el h; cases h
    | cons el0 rest ih =>
      intro acc el h
      rw [List.foldl_cons]
      rcases List.mem_cons.mp h with rfl | hmem
      · exact ⟨ghpBuildRelation_foldl_mono rest _ _ (relStep_mem_self acc el),
          ghpBuildRelation_foldl_mono rest _ _ (relStep_mem_rev acc el)⟩
      · exact ih _ el hmem
  intro e el h
  exact key e [] el h

/-- C6 counterexample: the labyrinth `Graph.__init__` never calls
`_buildRelation` (only the dead `_init_` does), so with `directed=False` the
relation list is stored as supplied: the reverse of `(0, 1)` is absent from
the stored relations, from the adjacency list of `1`, and from the matrix
cell `(1, 0)`. -/
theorem c6_counterexample :
    exceptIsOk (mkLabGraph [0, 1] [(0, 1)] false) = true ∧
    (labGraphOfOk (mkLabGraph [0, 1] [(0, 1)] false)).relations = [(0, 1)] ∧
    (1, 0) ∉ (labGraphOfOk (mkLabGraph [0, 1] [(0, 1)] false)).relations ∧
    (labGraphOfOk (mkLabGraph [0, 1] [(0, 1)] false)).adjList 1 = some [] ∧
    cellGet (labGraphOfOk (mkLabGraph [0, 1] [(0, 1)] false)).adjMat 1 0 = some 0 :=
  ⟨by decide, by decide, by decide, by decide, by decide⟩

/-- C6 (amended): in the weighted `graph_heap_pq` variant, `directed=False`
symmetrizes at construction: for each supplied triple `(u, v, w)` the
reverse `(v, u, w)` lands in the stored relation set and `(u, w)` in the
adjacency list of `v`, and — when no two stored relations share endpoints
with different weights — the matrix cell `(encode v, encode u)` holds `w`.
The labyrinth variant does not symmetrize at all: its `__init__` stores the
supplied relation list unchanged for every value of `directed`
(`_buildRelation` is reachable only from the dead `_init_` method). -/
theorem c6_undirected_symmetry_amended :
    (∀ (v : List Nat) (e : List (Nat × Nat × Int)),
      exceptIsOk (mkGhpGraph v e false) = true →
      ∀ el ∈ e,
        (el.2.1, el.1, el.2.2) ∈ (ghpGraphOfOk (mkGhpGraph v e false)).relations ∧
        (el.1, el.2.2) ∈
          ((ghpGraphOfOk (mkGhpGraph v e false)).adjList el.2.1).getD [] ∧
        ((∀ r1 ∈ (ghpGraphOfOk (mkGhpGraph v e false)).relations,
            ∀ r2 ∈ (ghpGraphOfOk (mkGhpGraph v e false)).relations,
              r1.1 = r2.1 → r1.2.1 = r2.2.1 → r1.2.2 = r2.2.2) →
          ∀ r c, (ghpGraphOfOk (mkGhpGraph v e false)).encoder el.2.1 = some r →
            (ghpGraphOfOk (mkGhpGraph v e false)).encoder el.1 = some c →
            cellGet (ghpGraphOfOk (mkGhpGraph v e false)).adjMat r c = some el.2.2)) ∧
    (∀ (v : List Nat) (e : List (Nat × Nat)) (d : Bool),
      exceptIsOk (mkLabGraph v e d) = true →
      (labGraphOfOk (mkLabGraph v e d)).relations = e) := by
  constructor
  · intro v e hok
    cases hg : mkGhpGraph v e false with
    | error err => rw [hg] at hok; exact absurd hok (by simp [exceptIsOk])
    | ok g =>
      simp only [ghpGraphOfOk]
      intro el hel
      obtain ⟨hvx, hrels, hencf, hdecf, hadj, hmat⟩ := mkGhpGraph_ok hg
      have hrev : (el.2.1, el.1, el.2.2) ∈ ghpBuildRelation false e :=
        (ghpBuildRelation_mem_undirected e el hel).2
      have hsrcmem : el.2.1 ∈ v := by
        have := (ghpAdjFill_ok_iff (ghpBuildRelation false e) (ghpAdjInit v)).mp
          ⟨_, hadj⟩ _ hrev
        rw [ghpAdjInit_spec] at this
        by_contra hmem
        simp [hmem] at this
      have hlist := ghpAdjFill_val _ _ _ hadj el.2.1 []
        (by rw [ghpAdjInit_spec, if_pos hsrcmem])
      refine ⟨by rw [hrels]; exact hrev, ?_, ?_⟩
      · rw [hlist]
        simp only [Option.getD_some, List.nil_append]
        rw [List.mem_filterMap]
        exact ⟨(el.2.1, el.1, el.2.2), hrev, by rw [if_pos rfl]⟩
      · intro hfun r c hencr hencc
        rw [hencf] at hencr hencc
        obtain ⟨w', hlw⟩ := lastWeight_isSome hrev hencr hencc
        have hcell := matFill_cell (fun x i h => ghpEncoder_lt_of_some h)
          (ghpBuildRelation false e) (matInit v.length) g.adjMat
          (matSquare_init v.length) hmat r c
        rw [hlw] at hcell
        dsimp only at hcell
        obtain ⟨rel', hrel'mem, hr1, hr2, hrw⟩ := lastWeight_mem hlw
        have hrel1 : rel'.1 = el.2.1 := ghpEncoder_inj hr1 hencr
        have hrel2 : rel'.2.1 = el.1 := ghpEncoder_inj hr2 hencc
        have hsame : rel'.2.2 = el.2.2 := by
          have := hfun rel' (by rw [hrels]; exact hrel'mem)
            (el.2.1, el.1, el.2.2) (by rw [hrels]; exact hrev)
          exact this hrel1 hrel2
        rw [hcell, ← hrw, hsame]
  · intro v e d hok
    cases hg : mkLabGraph v e d with
    | error err => rw [hg] at hok; exact absurd hok (by simp [exceptIsOk])
    | ok g =>
      simp only [labGraphOfOk]
      exact (mkLabGraph_ok hg).2.1

/-- Witness for C6 (amended): one undirected weighted edge `(0, 1, 5)`
yields its reverse in the relations, the list view and the matrix view; the
labyrinth side stores relations unchanged. -/
theorem c6_undirected_symmetry_amended_witness :
    ((1, 0, 5) ∈ (ghpGraphOfOk (mkGhpGraph [0, 1] [(0, 1, 5)] false)).relations ∧
      (0, 5) ∈ ((ghpGraphOfOk (mkGhpGraph [0, 1] [(0, 1, 5)] false)).adjList 1).getD [] ∧
      cellGet (ghpGraphOfOk (mkGhpGraph [0, 1] [(0, 1, 5)] false)).adjMat 1 0 =
        some 5) ∧
    (labGraphOfOk (mkLabGraph [0, 1] [(0, 1)] true)).relations = [(0, 1)] := by
  obtain ⟨h1, h2, h3⟩ := c6_undirected_symmetry_amended.1 [0, 1] [(0, 1, 5)]
    (by decide) (0, 1, 5) (by decide)
  exact ⟨⟨h1, h2, h3 (by decide) 1 0 (by decide) (by decide)⟩,
    c6_undirected_symmetry_amended.2 [0, 1] [(0, 1)] true (by decide)⟩

/-- The color strings `WHITE`/`GRAY`/`BLACK` of the traversal sources. -/
inductive PyColor : Type
  | white
  | gray
  | black
deriving DecidableEq

/-- One `self.v_props` table.  The Python dict keyed by the vertexes is
modelled as total maps; the algorithms only read keys that are listed
vertexes or adjacency-list destinations, which a successful construction
guarantees are listed.  `distance` is `math.inf` (`none`) or a number. -/
structure VProps : Type where
  color : Nat → PyColor
  distance : Nat → Option Int
  parent : Nat → Option Nat

/-- `graph_heap_pq.Graph._buildVProps(source)`: every vertex white, distance
`math.inf`, parent `None`; then only the source's *distance* is set to `0` —
its color stays white (the labyrinth variant instead replaces the whole
source entry, recoloring it gray). -/
def ghpBuildVProps (source : Nat) : VProps :=
  { color := fun _ => .white,
    distance := fun v => if v = source then some 0 else none,
    parent := fun _ => none }

/-- `distance + w` with `math.inf` absorbing. -/
def oadd (d : Option Int) (w : Int) : Option Int := d.map (· + w)

/-- One BFS neighbor visit: a white neighbor is colored gray, given
`distance[u] + 1` and parent `u`, and appended to the queue. -/
def bfsVisit (u : Nat) (st : VProps × List Nat) (nb : Nat) : VProps × List Nat :=
  let p := st.1
  if p.color nb = .white then
    ({ color := fun x => if x = nb then .gray else p.color x,
       distance := fun x => if x = nb then oadd (p.distance u) 1 else p.distance x,
       parent := fun x => if x = nb then some u else p.parent x }, st.2 ++ [nb])
  else st

/-- `graph_heap_pq.Graph.bfs` main loop, fuel-counted (`none` when the fuel
runs out before the queue empties; the fuel chosen below always suffices in
the concrete runs used here): pop the queue head, visit the adjacency-list
neighbors (first components of the `(neighbor, weight)` pairs), then blacken
the popped vertex. -/
def bfsLoop (g : GhpGraph) : Nat → List Nat → VProps → Option VProps
  | 0, queue, p => if queue.isEmpty then some p else none
  | fuel + 1, queue, p =>
    match queue with
    | [] => some p
    | u :: rest =>
      let st := (((g.adjList u).getD []).map Prod.fst).foldl (bfsVisit u) (p, rest)
      bfsLoop g fuel st.2
        { st.1 with color := fun x => if x = u then .black else (st.1).color x }

/-- `graph_heap_pq.Graph.bfs(source)`: fresh properties, queue `[source]`,
then the loop.  Every vertex is enqueued at most once after the initial
push, so `|vertexes| + 2` fuel covers every terminating run. -/
def ghpBfs (g : GhpGraph) (source : Nat) : Option VProps :=
  bfsLoop g (g.vertexes.length + 2) [source] (ghpBuildVProps source)

/-- Unpack a traversal result known to have terminated. -/
def vpOfOk (o : Option VProps) : VProps :=
  match o with
  | some p => p
  | none => { color := fun _ => .white, distance := fun _ => none,
              parent := fun _ => none }

/-- Iterated parent lookup: follow `k` parent links from `v`. -/
def parChain (par : Nat → Option Nat) : Nat → Nat → Option Nat
  | 0, v => some v
  | k + 1, v => (par v).bind (parChain par k)

/-- The `while v_props[current]['parent'] is not None` loop of `getPath`
(textually identical in `graph_heap_pq` and `labyrinth_graph`),
fuel-counted: `none` models not reaching a parentless vertex within the
allotted iterations. -/
def getPathLoop (par : Nat → Option Nat) : Nat → Nat → List Nat →
    Option (List Nat)
  | 0, current, path =>
    match par current with
    | none => some path
    | some _ => none
  | fuel + 1, current, path =>
    match par current with
    | none => some path
    | some pv => getPathLoop par fuel pv (pv :: path)

/-- `getPath(vertex, v_props)`: start from `path = [vertex]`, prepend
parents until a vertex with no parent is reached, never consulting the
recorded distance. -/
def getPathF (par : Nat → Option Nat) (fuel : Nat) (vertex : Nat) :
    Option (List Nat) :=
  getPathLoop par fuel vertex [vertex]

/-- Spec-side reachability: `s` reaches `v` in exactly `k` hops along the
stored relations. -/
inductive HopsReach (rels : List (Nat × Nat × Int)) (s : Nat) : Nat → Nat → Prop
  | refl : HopsReach rels s s 0
  | step {u v : Nat} {k : Nat} {w : Int} : HopsReach rels s u k →
      (u, v, w) ∈ rels → HopsReach rels s v (k + 1)

/-- Spec-side weighted reachability: `s` reaches `v` by a path of total
weight `k` along the stored relations. -/
inductive WReach (rels : List (Nat × Nat × Int)) (s : Nat) : Nat → Int → Prop
  | refl : WReach rels s s 0
  | step {u v : Nat} {k w : Int} : WReach rels s u k →
      (u, v, w) ∈ rels → WReach rels s v (k + w)

/-- C3 (code bug): `graph_heap_pq._buildVProps` leaves the source white
(only its distance is set to `0`), so BFS on the one-vertex graph with
self-loop `(0, 0, 1)` rediscovers its own source and records distance `1`
for it, although the minimum number of edges from the source to itself is
`0` (the empty path, `HopsReach … 0 0 0`).  The sibling labyrinth
implementation recolors the source gray at initialization, confirming the
intended behavior. -/
theorem c3_bfs_optimality_bug :
    exceptIsOk (mkGhpGraph [0] [(0, 0, 1)] true) = true ∧
    (ghpBfs (ghpGraphOfOk (mkGhpGraph [0] [(0, 0, 1)] true)) 0).isSome = true ∧
    HopsReach (ghpGraphOfOk (mkGhpGraph [0] [(0, 0, 1)] true)).relations 0 0 0 ∧
    (vpOfOk (ghpBfs (ghpGraphOfOk (mkGhpGraph [0] [(0, 0, 1)] true)) 0)).distance 0 =
      some 1 ∧
    (vpOfOk (ghpBfs (ghpGraphOfOk (mkGhpGraph [0] [(0, 0, 1)] true)) 0)).distance 0 ≠
      some 0 :=
  ⟨by decide, by decide, HopsReach.refl, by decide, by decide⟩

/-- C10 (code bug): on the same self-loop graph (weights all non-negative)
BFS records the source as its own parent, so the parent pointers are not an
acyclic forest: every number of parent-following steps from `0` stays at
`0` and never reaches a parentless vertex, and the `getPath` loop fails to
terminate for any amount of fuel. -/
theorem c10_parent_chain_bug :
    exceptIsOk (mkGhpGraph [0] [(0, 0, 1)] true) = true ∧
    (∀ rel ∈ (ghpGraphOfOk (mkGhpGraph [0] [(0, 0, 1)] true)).relations,
      0 ≤ rel.2.2) ∧
    (ghpBfs (ghpGraphOfOk (mkGhpGraph [0] [(0, 0, 1)] true)) 0).isSome = true ∧
    (vpOfOk (ghpBfs (ghpGraphOfOk (mkGhpGraph [0] [(0, 0, 1)] true)) 0)).parent 0 =
      some 0 ∧
    (∀ k, parChain
      (vpOfOk (ghpBfs (ghpGraphOfOk (mkGhpGraph [0] [(0, 0, 1)] true)) 0)).parent
      k 0 = some 0) ∧
    (∀ fuel, getPathF
      (vpOfOk (ghpBfs (ghpGraphOfOk (mkGhpGraph [0] [(0, 0, 1)] true)) 0)).parent
      fuel 0 = none) := by
  have hpar : (vpOfOk
      (ghpBfs (ghpGraphOfOk (mkGhpGraph [0] [(0, 0, 1)] true)) 0)).parent 0 =
      some 0 := by decide
  refine ⟨by decide, by decide, by decide, hpar, ?_, ?_⟩
  · intro k
    induction k with
    | zero => rfl
    | succ n ih => rw [parChain, hpar, Option.some_bind]; exact ih
  · have hloop : ∀ f path, getPathLoop
        (vpOfOk (ghpBfs (ghpGraphOfOk (mkGhpGraph [0] [(0, 0, 1)] true)) 0)).parent
        f 0 path = none := by
      intro f
      induction f with
      | zero => intro path; rw [getPathLoop, hpar]
      | succ n ih => intro path; rw [getPathLoop, hpar]; exact ih _
    intro fuel
    exact hloop fuel _

/-- Python `<` on distances that are `math.inf` (`none`) or a number:
`inf` is larger than every number and not less than itself. -/
def optIntLt (a b : Option Int) : Bool :=
  match a, b with
  | some x, some y => decide (x < y)
  | some _, none => true
  | none, _ => false

/-- Python tuple comparison on the `(distance, vertex)` pairs the Dijkstra
priority queue holds: lexicographic. -/
def pairLt (a b : Option Int × Nat) : Bool :=
  optIntLt a.1 b.1 || (a.1 == b.1 && decide (a.2 < b.2))

/-- `dist[neighbor] > dist[u] + weight`, i.e. Python `>` with `math.inf`. -/
def ogt (a b : Option Int) : Bool := optIntLt b a

/-- One relaxation step of `dijkstraP`: if going through `u` improves the
neighbor's distance, record the new distance and parent, and when the
neighbor is still queued replace its heap entry `(old, nb)` by the improved
one via the in-place `Heap.update`. -/
def dijRelax (u : Nat) (inq : Nat → Bool)
    (st : VProps × PyHeap (Option Int × Nat)) (nw : Nat × Int) :
    VProps × PyHeap (Option Int × Nat) :=
  let p := st.1
  let nb := nw.1
  if ogt (p.distance nb) (oadd (p.distance u) nw.2) then
    let old := p.distance nb
    let newd := oadd (p.distance u) nw.2
    let p' := { p with
      distance := fun x => if x = nb then newd else p.distance x,
      parent := fun x => if x = nb then some u else p.parent x }
    if inq nb then (p', ghpUpdate pairLt st.2 (old, nb) (newd, nb))
    else (p', st.2)
  else st

/-- `dijkstraP` main loop, fuel-counted (`none` when the fuel runs out or a
dequeue fails; neither happens in the runs below): dequeue the least
`(distance, vertex)` pair, clear its `in_queue` flag, relax the
adjacency-list neighbors. -/
def dijLoop (g : GhpGraph) : Nat → PyHeap (Option Int × Nat) → (Nat → Bool) →
    VProps → Option VProps
  | 0, h, _, p => if h.data.isEmpty then some p else none
  | fuel + 1, h, inq, p =>
    if h.data.isEmpty then some p
    else
      match ghpDequeue pairLt h with
      | .error _ => none
      | .ok (pr, h') =>
        let u := pr.2
        let inq' := fun x => if x = u then false else inq x
        let st := ((g.adjList u).getD []).foldl (dijRelax u inq') (p, h')
        dijLoop g fuel st.2 inq' st.1

/-- `Graph.dijkstraP(s)`: fresh properties (source distance `0`), a
min-config `PriorityQueue` over the `(distance, vertex)` pairs of all
vertexes, `in_queue` all-true, then the dequeue loop; each iteration
removes exactly one heap element, so `|vertexes|` fuel covers the run. -/
def ghpDijkstraP (g : GhpGraph) (s : Nat) : Option VProps :=
  let p0 := ghpBuildVProps s
  let h0 := mkGhpHeap pairLt (g.vertexes.map (fun v => (p0.distance v, v))) false
  dijLoop g g.vertexes.length h0 (fun _ => true) p0

/-- C1 (code bug): `Heap.update` overwrites in place and sifts *down* only,
so a decrease-key pushes a smaller pair below larger ones and the min-queue
dequeues vertices in the wrong order.  On the non-negative-weight graph
`0→1 (10), 0→2 (1), 2→1 (1), 1→3 (1)` the run from source `0` records
distance `11` for vertex `3`, although a path of total weight `3`
(`0→2→1→3`) exists and every path to `3` weighs at least `3` — so the
recorded distance is not the minimum total path weight. -/
theorem c1_dijkstra_optimality_bug :
    exceptIsOk (mkGhpGraph [0, 1, 2, 3]
      [(0, 1, 10), (0, 2, 1), (2, 1, 1), (1, 3, 1)] true) = true ∧
    (ghpGraphOfOk (mkGhpGraph [0, 1, 2, 3]
      [(0, 1, 10), (0, 2, 1), (2, 1, 1), (1, 3, 1)] true)).relations =
      [(0, 1, 10), (0, 2, 1), (2, 1, 1), (1, 3, 1)] ∧
    (∀ rel ∈ [((0 : Nat), (1 : Nat), (10 : Int)), (0, 2, 1), (2, 1, 1), (1, 3, 1)],
      0 ≤ rel.2.2) ∧
    (ghpDijkstraP (ghpGraphOfOk (mkGhpGraph [0, 1, 2, 3]
      [(0, 1, 10), (0, 2, 1), (2, 1, 1), (1, 3, 1)] true)) 0).isSome = true ∧
    (vpOfOk (ghpDijkstraP (ghpGraphOfOk (mkGhpGraph [0, 1, 2, 3]
      [(0, 1, 10), (0, 2, 1), (2, 1, 1), (1, 3, 1)] true)) 0)).distance 3 =
      some 11 ∧
    WReach [(0, 1, 10), (0, 2, 1), (2, 1, 1), (1, 3, 1)] 0 3 3 ∧
    (∀ k, WReach [(0, 1, 10), (0, 2, 1), (2, 1, 1), (1, 3, 1)] 0 3 k → 3 ≤ k) := by
  refine ⟨by decide, by decide, by decide, by decide, by decide, ?_, ?_⟩
  · have e1 : ((0 : Nat), (2 : Nat), (1 : Int)) ∈
        [((0 : Nat), (1 : Nat), (10 : Int)), (0, 2, 1), (2, 1, 1), (1, 3, 1)] := by
      decide
    have e2 : ((2 : Nat), (1 : Nat), (1 : Int)) ∈
        [((0 : Nat), (1 : Nat), (10 : Int)), (0, 2, 1), (2, 1, 1), (1, 3, 1)] := by
      decide
    have e3 : ((1 : Nat), (3 : Nat), (1 : Int)) ∈
        [((0 : Nat), (1 : Nat), (10 : Int)), (0, 2, 1), (2, 1, 1), (1, 3, 1)] := by
      decide
    have w1 : WReach [(0, 1, 10), (0, 2, 1), (2, 1, 1), (1, 3, 1)] 0 2 (0 + 1) :=
      WReach.step WReach.refl e1
    have w2 := WReach.step w1 e2
    have w3 := WReach.step w2 e3
    have harith : ((0 : Int) + 1 + 1 + 1) = 3 := by norm_num
    rwa [harith] at w3
  · have hmin : ∀ (v' : Nat) (k : Int),
        WReach [(0, 1, 10), (0, 2, 1), (2, 1, 1), (1, 3, 1)] 0 v' k →
        (v' = 0 → 0 ≤ k) ∧ (v' = 1 → 2 ≤ k) ∧ (v' = 2 → 1 ≤ k) ∧
          (v' = 3 → 3 ≤ k) := by
      intro v' k h
      induction h with
      | refl =>
        exact ⟨fun _ => by norm_num, fun h => absurd h (by decide),
          fun h => absurd h (by decide), fun h => absurd h (by decide)⟩
      | step hr hmem ih =>
        simp only [List.mem_cons, List.not_mem_nil, or_false, Prod.mk.injEq] at hmem
        rcases hmem with ⟨rfl, rfl, rfl⟩ | ⟨rfl, rfl, rfl⟩ | ⟨rfl, rfl, rfl⟩ |
          ⟨rfl, rfl, rfl⟩
        · have hu := ih.1 rfl
          exact ⟨fun h => by omega, fun h => by omega, fun h => by omega,
            fun h => by omega⟩
        · have hu := ih.1 rfl
          exact ⟨fun h => by omega, fun h => by omega, fun h => by omega,
            fun h => by omega⟩
        · have hu := ih.2.2.1 rfl
          exact ⟨fun h => by omega, fun h => by omega, fun h => by omega,
            fun h => by omega⟩
        · have hu := ih.2.1 rfl
          exact ⟨fun h => by omega, fun h => by omega, fun h => by omega,
            fun h => by omega⟩
    intro k hk
    exact (hmin 3 k hk).2.2.2 rfl

/-- C9 counterexample: BFS from `0` on the two-vertex edgeless graph leaves
vertex `1` at infinite distance, yet `getPath(1, …)` does not fail with
`Unreachable` (or anything else) — it returns `[1]`. -/
theorem c9_counterexample :
    exceptIsOk (mkGhpGraph [0, 1] [] true) = true ∧
    (ghpBfs (ghpGraphOfOk (mkGhpGraph [0, 1] [] true)) 0).isSome = true ∧
    (vpOfOk (ghpBfs (ghpGraphOfOk (mkGhpGraph [0, 1] [] true)) 0)).distance 1 =
      none ∧
    getPathF (vpOfOk (ghpBfs (ghpGraphOfOk (mkGhpGraph [0, 1] [] true)) 0)).parent
      2 1 = some [1] :=
  ⟨by decide, by decide, by decide, by decide⟩

theorem getPathLoop_spec (par : Nat → Option Nat) :
    ∀ (k current root fuel : Nat) (path : List Nat),
      parChain par k current = some root → par root = none → k ≤ fuel →
      path.head? = some current →
      List.Chain' (fun a b => par b = some a) path →
      ∃ res, getPathLoop par fuel current path = some res ∧
        res.head? = some root ∧
        res.getLast? = path.getLast? ∧
        List.Chain' (fun a b => par b = some a) res := by
  intro k
  induction k with
  | zero =>
    intro current root fuel path hchain hroot _ hhead hch
    have hc : current = root := Option.some.inj hchain
    subst hc
    cases fuel with
    | zero => exact ⟨path, by rw [getPathLoop, hroot], hhead, rfl, hch⟩
    | succ n => exact ⟨path, by rw [getPathLoop, hroot], hhead, rfl, hch⟩
  | succ m ih =>
    intro current root fuel path hchain hroot hle hhead hch
    rw [parChain] at hchain
    cases hp : par current with
    | none => rw [hp] at hchain; cases hchain
    | some pv =>
      rw [hp, Option.some_bind] at hchain
      cases fuel with
      | zero => omega
      | succ n =>
        have hch' : List.Chain' (fun a b => par b = some a) (pv :: path) :=
          List.chain'_cons'.mpr
            ⟨fun y hy => by
                rw [hhead, Option.mem_some_iff] at hy
                rw [← hy]
                exact hp,
              hch⟩
        obtain ⟨res, hr1, hr2, hr3, hr4⟩ := ih pv root n (pv :: path) hchain hroot
          (by omega) rfl hch'
        refine ⟨res, by rw [getPathLoop, hp]; exact hr1, hr2, ?_, hr4⟩
        rw [hr3]
        cases path with
        | nil => cases hhead
        | cons c rest => rw [List.getLast?_cons_cons]

/-- C9 (amended): `getPath` never inspects the recorded distance and raises
no `Unreachable` (nor any other) failure; whenever following parent links
from the target reaches a parentless vertex within the allotted iterations,
it returns a non-empty vertex sequence that starts at that parentless root,
ends at the target, and steps along parent links (each vertex's recorded
parent is its predecessor in the sequence).  In particular a target whose
parent is `None` — including one left at infinite distance by the
traversal — yields `[target]`. -/
theorem c9_getPath_amended :
    ∀ (par : Nat → Option Nat) (k fuel target root : Nat),
      parChain par k target = some root → par root = none → k ≤ fuel →
      ∃ path, getPathF par fuel target = some path ∧ path ≠ [] ∧
        path.head? = some root ∧ path.getLast? = some target ∧
        List.Chain' (fun a b => par b = some a) path := by
  intro par k fuel target root h1 h2 h3
  obtain ⟨res, hr1, hr2, hr3, hr4⟩ := getPathLoop_spec par k target root fuel
    [target] h1 h2 h3 rfl (List.chain'_singleton _)
  refine ⟨res, hr1, ?_, hr2, by rw [hr3]; rfl, hr4⟩
  intro hnil
  rw [hnil] at hr2
  cases hr2

/-- Witness for C9 (amended): the parent table BFS builds on the one-edge
graph `0→1` sends target `1` to the path `[0, 1]`. -/
theorem c9_getPath_amended_witness :
    ∃ path, getPathF
      (vpOfOk (ghpBfs (ghpGraphOfOk (mkGhpGraph [0, 1] [(0, 1, 3)] true)) 0)).parent
      2 1 = some path ∧ path ≠ [] ∧ path.head? = some 0 ∧
      path.getLast? = some 1 ∧
      List.Chain' (fun a b =>
        (vpOfOk (ghpBfs (ghpGraphOfOk (mkGhpGraph [0, 1] [(0, 1, 3)] true)) 0)).parent
          b = some a) path :=
  c9_getPath_amended _ 1 2 1 0 (by decide) (by decide) (by decide)
